import Mathlib

/-!
Verification of the heuristic CSV ingestion layer (src/lib/csv/parse.ts).

Decoded text is modelled as lists of Unicode scalar values, byte buffers as
lists of byte values, and JavaScript records as insertion-ordered association
lists.  The external collaborators (the platform text decoder and the
delimited-text tokenizer) are modelled from the spec where noted; everything
else is translated directly from the source file.
-/

namespace Csv

/-- Decoded text and cell values: lists of Unicode scalar values. -/
abbrev Str := List Char

/-- Raw input buffers: lists of byte values. -/
abbrev Bytes := List Nat

/-- A parsed record: column name to cell value, in insertion order. -/
abbrev Obj := List (Str × Str)

/-- The characters the JavaScript runtime treats as whitespace
(String.prototype.trim and the regular-expression whitespace class). -/
def isJsSpace (c : Char) : Bool :=
  let n := c.toNat
  n == 9 || n == 10 || n == 11 || n == 12 || n == 13 || n == 32 ||
  n == 0xA0 || n == 0x1680 || (0x2000 ≤ n && n ≤ 0x200A) ||
  n == 0x2028 || n == 0x2029 || n == 0x202F || n == 0x205F || n == 0x3000 || n == 0xFEFF

/-- JavaScript String.prototype.trim. -/
def jsTrim (s : Str) : Str :=
  ((s.dropWhile isJsSpace).reverse.dropWhile isJsSpace).reverse

/-- Split a character list at every occurrence of the delimiter; n delimiters
give n+1 fields. -/
def splitOnChar (d : Char) : Str → List Str
  | [] => [[]]
  | c :: rest =>
    if c = d then [] :: splitOnChar d rest
    else
      match splitOnChar d rest with
      | [] => [[c]]
      | f :: fs => (c :: f) :: fs

/-- Join character lists with a single delimiter character (Array.join). -/
def joinChar (d : Char) : List Str → Str
  | [] => []
  | [s] => s
  | s :: rest => s ++ d :: joinChar d rest

/-- The replacement character emitted for undecodable input. -/
def replChar : Char := '�'

/-- The readable-character allowlist of textQualityScore's regular expression:
Hangul syllables, ASCII letters and digits, JS whitespace, and the punctuation
underscore, parentheses, square and curly brackets, hyphen, slash, comma,
period, colon. -/
def isReadableChar (c : Char) : Bool :=
  let n := c.toNat
  (0xAC00 ≤ n && n ≤ 0xD7A3) ||
  (65 ≤ n && n ≤ 90) || (97 ≤ n && n ≤ 122) || (48 ≤ n && n ≤ 57) ||
  isJsSpace c ||
  n == 0x5F || n == 0x28 || n == 0x29 || n == 0x5B || n == 0x5D ||
  n == 0x7B || n == 0x7D || n == 0x2D || n == 0x2F || n == 0x2C || n == 0x2E || n == 0x3A

/-- The control-character ranges counted by textQualityScore: codes 0-8, 11-12
and 14-31 (so tab, newline and carriage return are excluded). -/
def isCtrlCode (c : Char) : Bool :=
  let n := c.toNat
  n ≤ 8 || (11 ≤ n && n ≤ 12) || (14 ≤ n && n ≤ 31)

/-- textQualityScore from src/lib/csv/parse.ts: one pass over the text with
three counters (readable, replacement, control); a character is classified as
replacement first, then control, then readable; empty text scores -1000. -/
def textQualityScore (text : Str) : Int :=
  if text.isEmpty then -1000
  else
    let counts := text.foldl
      (fun (acc : Nat × Nat × Nat) ch =>
        if ch = replChar then (acc.1, acc.2.1 + 1, acc.2.2)
        else if isCtrlCode ch then (acc.1, acc.2.1, acc.2.2 + 1)
        else if isReadableChar ch then (acc.1 + 1, acc.2.1, acc.2.2)
        else acc)
      (0, 0, 0)
    (counts.1 : Int) - (counts.2.1 : Int) * 12 - (counts.2.2 : Int) * 12

/-- rowsQualityScore from src/lib/csv/parse.ts: the sample is the first row's
keys joined by spaces, a space, then the values of the first 8 rows (first 6
values of each) joined by spaces. -/
def rowsQualityScore (rows : List Obj) : Int :=
  if rows.length = 0 then -1000
  else
    let first := rows.headD []
    let headerText := joinChar ' ' (first.map Prod.fst)
    let valueText := joinChar ' ' ((rows.take 8).flatMap (fun row => (row.map Prod.snd).take 6))
    textQualityScore (headerText ++ ' ' :: valueText)

/-! ### Text normalization (normalizeText and its regular expressions) -/

/-- Lower-case an ASCII letter (the case-insensitive flag of the sep= match). -/
def lowerAscii (c : Char) : Char :=
  if 65 ≤ c.toNat ∧ c.toNat ≤ 90 then Char.ofNat (c.toNat + 32) else c

/-- Characters matched by the regular-expression dot without the dotAll flag:
everything except the four line terminators. -/
def isRegexDot (c : Char) : Bool :=
  !(c.toNat == 10 || c.toNat == 13 || c.toNat == 0x2028 || c.toNat == 0x2029)

/-- Strip a leading byte-order mark (the first replace of normalizeText). -/
def stripBom (t : Str) : Str :=
  match t with
  | c :: rest => if c.toNat = 0xFEFF then rest else t
  | [] => []

/-- Scan the remainder of a sep= directive body: returns the number of
characters through the terminating newline when the tail matches
(dot-characters)* followed by an optional carriage return and a newline. -/
def sepLineEnd : Str → Option Nat
  | [] => none
  | c :: rest =>
    if c = '\n' then some 1
    else if c = '\r' then
      match rest with
      | '\n' :: _ => some 2
      | _ => none
    else if isRegexDot c then (sepLineEnd rest).map (fun n => n + 1)
    else none

/-- The tail of a separator-directive match, after the sep= prefix: at least
one dot-character, then the line end; the first argument is the whole text,
returned unchanged when the pattern fails. -/
def sepAfterEq (t : Str) (rest : Str) : Str :=
  match rest with
  | e :: rest2 =>
    if isRegexDot e then
      match sepLineEnd rest2 with
      | some n => rest2.drop n
      | none => t
    else t
  | [] => t

/-- Strip a leading Excel separator directive, the second replace of
normalizeText: the anchored case-insensitive pattern sep= followed by at
least one dot-character, an optional carriage return and a newline. -/
def stripSepLine (t : Str) : Str :=
  match t with
  | a :: b :: c :: d :: rest =>
    if lowerAscii a = 's' ∧ lowerAscii b = 'e' ∧ lowerAscii c = 'p' ∧ d = '=' then
      sepAfterEq (a :: b :: c :: d :: rest) rest
    else t
  | _ => t

/-- The third replace of normalizeText: every CRLF pair becomes one LF
(left-to-right, non-overlapping). -/
def stripCrLf : Str → Str
  | '\r' :: '\n' :: rest => '\n' :: stripCrLf rest
  | c :: rest => c :: stripCrLf rest
  | [] => []

/-- The fourth replace of normalizeText: every remaining CR becomes LF. -/
def crToLf (t : Str) : Str := t.map (fun c => if c = '\r' then '\n' else c)

/-- normalizeText from src/lib/csv/parse.ts. -/
def normalizeText (t : Str) : Str :=
  crToLf (stripCrLf (stripSepLine (stripBom t)))

/-! ### The delimited-text tokenizer (external collaborator)

Modelled from the spec: the decoder depends on a commodity tokenizer with
configurable delimiters and greedy blank-line skipping (spec section 9).
Quoted-field handling is not modelled; no claim depends on quoted fields and
every universally quantified theorem below restricts its input to quote-free
text.  Rows whose cells are all whitespace are dropped (the greedy
skip-empty-lines mode used by the source). -/

/-- Cells of every line of the text, under one delimiter character. -/
def papaCells (d : Char) (text : Str) : List (List Str) :=
  (splitOnChar '\n' text).map (splitOnChar d)

/-- A row is blank when every cell trims to the empty string. -/
def isBlankRow (row : List Str) : Bool := row.all (fun cell => (jsTrim cell).isEmpty)

/-- The tokenizer's grid: cells of every line, blank rows dropped greedily. -/
def papaGrid (d : Char) (text : Str) : List (List Str) :=
  (papaCells d text).filter (fun row => !isBlankRow row)

/-- The delimiters the tokenizer's auto-detection tries, in its order. -/
def SNIFF_DELIMS : List Char := [',', '\t', '|', ';']

/-- Modelled from the spec: a delimiter is consistent when the non-blank lines
all have the same field count and that count is at least 2. -/
def consistentDelim (text : Str) (d : Char) : Bool :=
  match papaGrid d text with
  | [] => false
  | r :: rs => decide (2 ≤ r.length) && rs.all (fun row => row.length == r.length)

/-- Modelled from the spec: delimiter sniffing picks the first consistent
candidate delimiter; detection fails when none is consistent. -/
def sniffDelim (text : Str) : Option Char :=
  SNIFF_DELIMS.find? (consistentDelim text)

/-- A tokenizer-reported error; only its type tag matters to the decoder
(the source compares error.type against the FieldMismatch tag). -/
inductive PapaErrKind
  | fieldMismatch
  | delim
deriving DecidableEq, Repr

/-- JavaScript object property assignment on a string-keyed record: an
existing key is updated in place, a new key is appended.  (The integer-like
key reordering of JS objects is not modelled; no claim depends on it.) -/
def objInsert (k v : Str) (o : Obj) : Obj :=
  if o.any (fun p => p.1 == k) then o.map (fun p => if p.1 == k then (k, v) else p)
  else o ++ [(k, v)]

/-- The key papaparse uses for cells beyond the header. -/
def parsedExtraKey : Str := "__parsed_extra".data

/-- Modelled from the spec: header-mode row construction — cell j is assigned
to header j in order; cells beyond the header are joined by commas under the
parsed-extra key; a row shorter than the header simply lacks the remaining
keys (papaparse does not pad short rows). -/
def buildObj (fields : List Str) (row : List Str) : Obj :=
  let base := (fields.zip row).foldl (fun acc p => objInsert p.1 p.2 acc) []
  if fields.length < row.length then
    objInsert parsedExtraKey (joinChar ',' (row.drop fields.length)) base
  else base

/-- The header-mode tokenizer result: meta.fields, the records, the errors. -/
structure PapaHeaderResult where
  fields : List Str
  data : List Obj
  errors : List PapaErrKind
deriving Repr

/-- The delimiter a tokenizer call works with: the forced delimiter when one
is given, otherwise the sniffed one; a failed sniff falls back to comma and
reports one Delimiter error. -/
def papaDelim (text : Str) (dOpt : Option Char) : Char × List PapaErrKind :=
  match dOpt with
  | some d => (d, [])
  | none =>
    match sniffDelim text with
    | some d => (d, [])
    | none => (',', [PapaErrKind.delim])

/-- The header-mode tokenizer body, for a resolved delimiter: the first
non-blank row gives the header names (trimmed, per the transformHeader option
of the source); each later row becomes a record; a row whose cell count
differs from the header count yields one FieldMismatch error. -/
def papaHeaderCore (text : Str) (d : Char) (errs : List PapaErrKind) : PapaHeaderResult :=
  match papaGrid d text with
  | [] => ⟨[], [], errs⟩
  | hrow :: rest =>
    let fields := hrow.map jsTrim
    ⟨fields, rest.map (buildObj fields),
      errs ++ rest.flatMap
        (fun row => if row.length == fields.length then [] else [PapaErrKind.fieldMismatch])⟩

/-- Modelled from the spec: the header-mode tokenizer call. -/
def papaHeader (text : Str) (dOpt : Option Char) : PapaHeaderResult :=
  papaHeaderCore text (papaDelim text dOpt).1 (papaDelim text dOpt).2

/-- Modelled from the spec: the matrix-mode tokenizer call returns the raw
grid (blank rows dropped) and the tokenizer errors (only a failed sniff
produces one; mismatch errors are a header-mode concept). -/
def papaMatrix (text : Str) (dOpt : Option Char) : List (List Str) × List PapaErrKind :=
  (papaGrid (papaDelim text dOpt).1 text, (papaDelim text dOpt).2)

/-! ### The two parse strategies (direct translations) -/

/-- A candidate parse: its rows and its score. -/
structure ParseCandidate where
  rows : List Obj
  score : Int
deriving DecidableEq, Repr

/-- normalizeRows from src/lib/csv/parse.ts: every key and value is trimmed
(re-assigned through object semantics) and a row whose values are all empty is
dropped. -/
def normalizeRows (rows : List Obj) : List Obj :=
  (rows.map (fun row => row.foldl (fun acc p => objInsert (jsTrim p.1) (jsTrim p.2) acc) []))
    |>.filter (fun row => row.any (fun p => !p.2.isEmpty))

/-- parseWithHeader from src/lib/csv/parse.ts.  In header mode meta.fields is
always present, so the source's fallback to the first row's key count is dead
and the header count is the field count. -/
def parseWithHeader (text : Str) (delimiter : Option Char) : Option ParseCandidate :=
  let result := papaHeader text delimiter
  let rows := normalizeRows result.data
  let headerCount := result.fields.length
  if headerCount < 2 ∨ rows.length = 0 then none
  else
    let mismatchCount := (result.errors.filter (fun e => e == PapaErrKind.fieldMismatch)).length
    let errorCount := result.errors.length
    let quality := rowsQualityScore rows
    some ⟨rows, (rows.length : Int) * 10 + (headerCount : Int) * 3 -
      (mismatchCount : Int) - (errorCount : Int) * 2 + quality⟩

/-- Decimal digits of a number (JS template interpolation of a count). -/
def natDigits (n : Nat) : Str := (Nat.repr n).data

/-- The base name of a blank header cell: col_ and the 1-based index. -/
def colBase (index : Nat) : Str := "col_".data ++ natDigits (index + 1)

/-- Increment one entry of the used-name counter when its key matches. -/
def bumpEntry (k : Str) (p : Str × Nat) : Str × Nat :=
  if p.1 == k then (p.1, p.2 + 1) else p

/-- The used-name counter of uniqueHeaders (a JS Map keyed by base name). -/
def bumpCount (used : List (Str × Nat)) (k : Str) : List (Str × Nat) :=
  if used.any (fun p => p.1 == k) then used.map (bumpEntry k)
  else used ++ [(k, 1)]

/-- Look up how often a base name was already used. -/
def lookupCount (used : List (Str × Nat)) (k : Str) : Nat :=
  match used.find? (fun p => p.1 == k) with
  | some p => p.2
  | none => 0

/-- The loop of uniqueHeaders: blank cells become col_(index+1); the first
occurrence of a base keeps it, the (k+1)-th gets the suffix _(k+1). -/
def uniqueHeadersGo (used : List (Str × Nat)) (index : Nat) : List Str → List Str
  | [] => []
  | h :: rest =>
    let t := jsTrim h
    let base := if t.isEmpty then colBase index else t
    let count := lookupCount used base
    (if count = 0 then base else base ++ '_' :: natDigits (count + 1)) ::
      uniqueHeadersGo (bumpCount used base) (index + 1) rest

/-- uniqueHeaders from src/lib/csv/parse.ts. -/
def uniqueHeaders (headers : List Str) : List Str := uniqueHeadersGo [] 0 headers

/-- One matrix-strategy record: header i is assigned the trimmed cell i,
missing cells becoming empty strings. -/
def buildMatrixRow (headers : List Str) (row : List Str) : Obj :=
  headers.enum.foldl (fun acc p => objInsert p.2 (jsTrim (row.getD p.1 [])) acc) []

/-- parseWithMatrix from src/lib/csv/parse.ts. -/
def parseWithMatrix (text : Str) (delimiter : Option Char) : Option ParseCandidate :=
  let result := papaMatrix text delimiter
  let matrix := result.1
  if matrix.length < 2 then none
  else
    match matrix.findIdx? (fun row =>
        decide (2 ≤ (row.filter (fun v => !(jsTrim v).isEmpty)).length)) with
    | none => none
    | some headerIndex =>
      if matrix.length - 1 ≤ headerIndex then none
      else
        let headers := uniqueHeaders ((matrix.getD headerIndex []).map jsTrim)
        if headers.length < 2 then none
        else
          let rows := ((matrix.drop (headerIndex + 1)).map (buildMatrixRow headers)).filter
            (fun row => row.any (fun p => !p.2.isEmpty))
          if rows.length = 0 then none
          else
            let quality := rowsQualityScore rows
            some ⟨rows, (rows.length : Int) * 8 + (headers.length : Int) * 3 -
              (result.2.length : Int) * 2 + quality⟩

/-! ### The platform text decoder (external collaborator)

Modelled from the spec: the decoder fans out over five encodings through the
platform's non-fatal text decoder (malformed input becomes replacement
characters, so decoding itself never throws for these five labels; the
source's try/catch around it never yields null).  A leading byte-order mark
survives as U+FEFF here and is stripped by normalizeText, which has the same
effect as the platform's own BOM handling. -/

/-- A UTF-8 continuation byte. -/
def contByte (b : Nat) : Bool := 0x80 ≤ b && b ≤ 0xBF

/-- Lower bound of the second byte of a three-byte sequence. -/
def utf8Lo3 (b : Nat) : Nat := if b = 0xE0 then 0xA0 else 0x80

/-- Upper bound of the second byte of a three-byte sequence (excluding
surrogates). -/
def utf8Hi3 (b : Nat) : Nat := if b = 0xED then 0x9F else 0xBF

/-- Lower bound of the second byte of a four-byte sequence. -/
def utf8Lo4 (b : Nat) : Nat := if b = 0xF0 then 0x90 else 0x80

/-- Upper bound of the second byte of a four-byte sequence. -/
def utf8Hi4 (b : Nat) : Nat := if b = 0xF4 then 0x8F else 0xBF

/-- Modelled from the spec: WHATWG UTF-8 decoding, non-fatal (a malformed
sequence yields one replacement character and decoding resumes at the
offending byte). -/
def utf8Decode : Bytes → Str
  | [] => []
  | b :: rest =>
    if b < 0x80 then Char.ofNat b :: utf8Decode rest
    else if 0xC2 ≤ b ∧ b ≤ 0xDF then
      match rest with
      | [] => [replChar]
      | c :: rest2 =>
        if contByte c then Char.ofNat ((b - 0xC0) * 64 + (c - 0x80)) :: utf8Decode rest2
        else replChar :: utf8Decode (c :: rest2)
    else if 0xE0 ≤ b ∧ b ≤ 0xEF then
      match rest with
      | [] => [replChar]
      | c1 :: rest2 =>
        if utf8Lo3 b ≤ c1 ∧ c1 ≤ utf8Hi3 b then
          match rest2 with
          | [] => [replChar]
          | c2 :: rest3 =>
            if contByte c2 then
              Char.ofNat ((b - 0xE0) * 4096 + (c1 - 0x80) * 64 + (c2 - 0x80)) ::
                utf8Decode rest3
            else replChar :: utf8Decode (c2 :: rest3)
        else replChar :: utf8Decode (c1 :: rest2)
    else if 0xF0 ≤ b ∧ b ≤ 0xF4 then
      match rest with
      | [] => [replChar]
      | c1 :: rest2 =>
        if utf8Lo4 b ≤ c1 ∧ c1 ≤ utf8Hi4 b then
          match rest2 with
          | [] => [replChar]
          | c2 :: rest3 =>
            if contByte c2 then
              match rest3 with
              | [] => [replChar]
              | c3 :: rest4 =>
                if contByte c3 then
                  Char.ofNat ((b - 0xF0) * 262144 + (c1 - 0x80) * 4096 +
                    (c2 - 0x80) * 64 + (c3 - 0x80)) :: utf8Decode rest4
                else replChar :: utf8Decode (c3 :: rest4)
            else replChar :: utf8Decode (c2 :: rest3)
        else replChar :: utf8Decode (c1 :: rest2)
    else replChar :: utf8Decode rest

/-- One UTF-16 code unit from two bytes, under the endianness flag. -/
def utf16Unit (le : Bool) (b1 b2 : Nat) : Nat :=
  if le then b2 * 256 + b1 else b1 * 256 + b2

/-- Modelled from the spec: WHATWG UTF-16 decoding (little-endian when the
flag holds), non-fatal: lone surrogates and truncated units become
replacement characters. -/
def utf16Decode (le : Bool) : Bytes → Str
  | [] => []
  | [_] => [replChar]
  | b1 :: b2 :: rest =>
    if utf16Unit le b1 b2 < 0xD800 ∨ 0xDFFF < utf16Unit le b1 b2 then
      Char.ofNat (utf16Unit le b1 b2) :: utf16Decode le rest
    else if utf16Unit le b1 b2 ≤ 0xDBFF then
      match rest with
      | b3 :: b4 :: rest2 =>
        if 0xDC00 ≤ utf16Unit le b3 b4 ∧ utf16Unit le b3 b4 ≤ 0xDFFF then
          Char.ofNat (0x10000 + (utf16Unit le b1 b2 - 0xD800) * 1024 +
            (utf16Unit le b3 b4 - 0xDC00)) :: utf16Decode le rest2
        else replChar :: utf16Decode le (b3 :: b4 :: rest2)
      | [_] => [replChar, replChar]
      | [] => [replChar]
    else replChar :: utf16Decode le rest

/-- Modelled from the spec: the Korean-locale double-byte decoder (used for
both the euc-kr and cp949 labels).  ASCII bytes decode to themselves — the
only part any claim exercises; a double-byte sequence maps into the
Hangul-syllable block through a fixed stand-in formula (the real code table
is not reproduced); anything else becomes a replacement character. -/
def eucKrDecode : Bytes → Str
  | [] => []
  | b :: rest =>
    if b < 0x80 then Char.ofNat b :: eucKrDecode rest
    else if 0x81 ≤ b ∧ b ≤ 0xFE then
      match rest with
      | [] => [replChar]
      | b2 :: rest2 =>
        if 0x41 ≤ b2 ∧ b2 ≤ 0xFE then
          Char.ofNat (0xAC00 + ((b - 0x81) * 190 + (b2 - 0x41)) % 11172) :: eucKrDecode rest2
        else replChar :: eucKrDecode (b2 :: rest2)
    else replChar :: eucKrDecode rest

/-- The five encoding labels the source tries, as a type. -/
inductive Encoding
  | utf8
  | eucKr
  | cp949
  | utf16le
  | utf16be
deriving DecidableEq, Repr

/-- ENCODING_CANDIDATES from src/lib/csv/parse.ts, in priority order. -/
def ENCODING_CANDIDATES : List Encoding := [.utf8, .eucKr, .cp949, .utf16le, .utf16be]

/-- DELIMITER_CANDIDATES from src/lib/csv/parse.ts: comma, semicolon, tab,
pipe, fullwidth comma. -/
def DELIMITER_CANDIDATES : List Char := [',', ';', '\t', '|', '，']

/-- Dispatch one encoding label to its byte decoder. -/
def decodeBytes : Encoding → Bytes → Str
  | .utf8 => utf8Decode
  | .eucKr => eucKrDecode
  | .cp949 => eucKrDecode
  | .utf16le => utf16Decode true
  | .utf16be => utf16Decode false

/-- decodeWithEncoding from src/lib/csv/parse.ts: decode then normalize.  The
platform decoder is non-fatal for all five labels, so the try/catch of the
source never produces null here. -/
def decodeWithEncoding (buffer : Bytes) (e : Encoding) : Option Str :=
  some (normalizeText (decodeBytes e buffer))

/-- isLikelyXlsx from src/lib/csv/parse.ts: the ZIP local-file-header magic
number at the start of the buffer. -/
def isLikelyXlsx (buffer : Bytes) : Bool :=
  decide (4 ≤ buffer.length) && buffer.getD 0 0 == 0x50 && buffer.getD 1 0 == 0x4B &&
    buffer.getD 2 0 == 0x03 && buffer.getD 3 0 == 0x04

/-- The per-encoding body of parseCsvBuffer's loop: the auto-delimiter header
parse, then for each delimiter the forced header parse and then the matrix
parse, keeping every candidate. -/
def candidatesFor (text : Str) : List ParseCandidate :=
  (parseWithHeader text none).toList ++
    DELIMITER_CANDIDATES.flatMap (fun d =>
      (parseWithHeader text (some d)).toList ++ (parseWithMatrix text (some d)).toList)

/-- The full candidate pool of parseCsvBuffer: the loop over all five
encodings.  The source's falsy test on the decoded text also skips an
encoding whose normalized text is empty. -/
def collectCandidates (buffer : Bytes) : List ParseCandidate :=
  ENCODING_CANDIDATES.flatMap (fun e =>
    match decodeWithEncoding buffer e with
    | none => []
    | some text => if text.isEmpty then [] else candidatesFor text)

/-- Stable insertion into a descending-sorted list: an element moves past
strictly greater scores only, so equal scores keep their original order. -/
def insertDesc (c : ParseCandidate) : List ParseCandidate → List ParseCandidate
  | [] => [c]
  | d :: rest => if c.score < d.score then d :: insertDesc c rest else c :: d :: rest

/-- The sort of parseCsvBuffer's selection step, modelling the stable
Array.prototype.sort (required stable by the language specification) under
the comparator (a, b) maps-to b.score - a.score. -/
def sortDesc : List ParseCandidate → List ParseCandidate
  | [] => []
  | c :: rest => insertDesc c (sortDesc rest)

/-- The three throw sites of parseCsvBuffer, in source order: the
magic-number guard before decoding, the re-check on an empty pool, and the
generic unrecognized-format error. -/
inductive ParseErr
  | xlsxEarly
  | xlsxLate
  | unrecognized
deriving DecidableEq, Repr

/-- parseCsvBuffer from src/lib/csv/parse.ts.  The source's empty-pool test
and its sort-then-index-zero selection are fused into one match on the sorted
pool; sortDesc preserves emptiness, so the branches coincide with the
source's. -/
def parseCsvBuffer (buffer : Bytes) : Except ParseErr (List Obj) :=
  if isLikelyXlsx buffer then .error .xlsxEarly
  else
    match sortDesc (collectCandidates buffer) with
    | [] => if isLikelyXlsx buffer then .error .xlsxLate else .error .unrecognized
    | best :: _ => .ok best.rows

/-! ### Derived definitions used to state the claims -/

/-- The right-trim half of jsTrim. -/
def dropTailSpace (t : Str) : Str := (t.reverse.dropWhile isJsSpace).reverse

/-- The earliest-generated candidate of maximal score, stated the way the
tie-break claim reads: the first pool entry whose score is greater than or
equal to every pool entry's score. -/
def earliestMax (l : List ParseCandidate) : Option ParseCandidate :=
  l.find? (fun c => l.all (fun d => d.score ≤ c.score))

/-- Recursive earliest-maximum helper relating the stable sort to
earliestMax. -/
def firstMax : List ParseCandidate → Option ParseCandidate
  | [] => none
  | c :: rest =>
    match firstMax rest with
    | none => some c
    | some m => if m.score ≤ c.score then some c else some m

/-- The header-candidate score formula exactly as the claim states it:
10 per row, 3 per header column, minus the mismatch count, minus 2 per
non-mismatch error. -/
def claimHeaderScore (text : Str) (delimiter : Option Char) : Int :=
  let result := papaHeader text delimiter
  let rows := normalizeRows result.data
  let m := (result.errors.filter (fun e => e == PapaErrKind.fieldMismatch)).length
  let other := (result.errors.filter (fun e => !(e == PapaErrKind.fieldMismatch))).length
  (rows.length : Int) * 10 + (result.fields.length : Int) * 3 - (m : Int) - (other : Int) * 2 +
    rowsQualityScore rows

/-- Replacement-character count of the quality sample. -/
def countRepl (t : Str) : Nat := t.countP (fun c => c == replChar)

/-- Control-character count of the quality sample (codes 0-8, 11-12, 14-31:
the non-printables excluding tab, newline and carriage return). -/
def countCtrl (t : Str) : Nat := t.countP isCtrlCode

/-- Readable-character count of the quality sample.  The source classifies
each character once, replacement first, control second, readable last, so a
readable character is an allowlist character that is not in the control
ranges (the replacement character is never in the allowlist). -/
def countReadable (t : Str) : Nat := t.countP (fun c => isReadableChar c && !isCtrlCode c)

/-- The quality sample as the claim describes it: the first row's header
names joined with the values of the first 8 rows, first 6 columns of each. -/
def sampleText (rows : List Obj) : Str :=
  joinChar ' ' ((rows.headD []).map Prod.fst) ++
    ' ' :: joinChar ' ' ((rows.take 8).flatMap (fun row => (row.map Prod.snd).take 6))

/-- The base name of one raw header cell: its trim, or col_(i+1) when the
trim is blank. -/
def headerBase (h : Str) (i : Nat) : Str :=
  if (jsTrim h).isEmpty then colBase i else jsTrim h

/-- Header de-duplication as the claim describes it, carrying the list of
earlier base names: a position emits its base name when no earlier position
produced the same base, and otherwise the base suffixed with _(k+1) where k
is the number of earlier occurrences of that base, in order of appearance. -/
def specDedupFrom (done : List Str) : List Str → List Str
  | [] => []
  | h :: rest =>
    let b := headerBase h done.length
    let k := (done.filter (fun x => x == b)).length
    (if k = 0 then b else b ++ '_' :: natDigits (k + 1)) :: specDedupFrom (done ++ [b]) rest

/-- Header de-duplication per the claim, starting with no earlier names. -/
def specDedup (hs : List Str) : List Str := specDedupFrom [] hs

/-- A character allowed in a clean comma-separated cell: printable ASCII that
is not the comma, not one of the other candidate delimiters and not the
quote. -/
def cleanChar (c : Char) : Bool :=
  0x20 ≤ c.toNat && c.toNat ≤ 0x7E &&
    !(c == ',') && !(c == ';') && !(c == '|') && !(c == '"')

/-- One CSV line: cells joined by commas. -/
def csvLine (cells : List Str) : Str := joinChar ',' cells

/-- A whole CSV text: the header line and the data lines joined by
newlines. -/
def csvText (headerCells : List Str) (rowCells : List (List Str)) : Str :=
  joinChar '\n' (csvLine headerCells :: rowCells.map csvLine)

/-- The byte encoding of pure-ASCII text (its UTF-8 bytes). -/
def asciiBytes (t : Str) : Bytes := t.map Char.toNat

/-- Does a line begin with the (case-insensitive) Excel separator
directive? -/
def startsSepDirective (line : Str) : Bool :=
  match line with
  | a :: b :: c :: d :: _ =>
    lowerAscii a == 's' && lowerAscii b == 'e' && lowerAscii c == 'p' && d == '='
  | _ => false

/-- A clean comma-delimited table: at least 2 header cells, all cells made of
clean characters, header names non-blank and pairwise distinct after
trimming, at least one data row, every data row with exactly one cell per
header column and at least one non-blank cell, and no separator-directive
first line. -/
def cleanCsv (headerCells : List Str) (rowCells : List (List Str)) : Bool :=
  decide (2 ≤ headerCells.length) &&
  headerCells.all (fun h => h.all cleanChar) &&
  (headerCells.map jsTrim).all (fun t => !t.isEmpty) &&
  decide ((headerCells.map jsTrim).Nodup) &&
  !rowCells.isEmpty &&
  rowCells.all (fun r =>
    r.length == headerCells.length &&
    r.all (fun cell => cell.all cleanChar) &&
    r.any (fun cell => !(jsTrim cell).isEmpty)) &&
  !startsSepDirective (csvLine headerCells)

/-- The rows a clean comma-delimited table should decode to: each data row
zipped against the trimmed header names, all values trimmed. -/
def expectedRows (headerCells : List Str) (rowCells : List (List Str)) : List Obj :=
  rowCells.map (fun r => (headerCells.map jsTrim).zip (r.map jsTrim))

/-- A cell list for the matrix strategy: clean of the forced delimiter, of
newlines and of carriage returns. -/
def cellNoDelim (d : Char) (cell : Str) : Bool :=
  cell.all (fun c => !(c == d) && !(c == '\n') && !(c == '\r'))

/-- The text of a table with two leading junk lines: junk, junk, header
line, then the data lines, all joined by newlines. -/
def matrixText (d : Char) (j1 j2 : Str) (headerCells : List Str)
    (rowCells : List (List Str)) : Str :=
  joinChar '\n' (j1 :: j2 :: joinChar d headerCells :: rowCells.map (joinChar d))

/-- The rows the matrix strategy should produce: every data row zipped
positionally against the trimmed header names, missing trailing cells
becoming empty strings. -/
def expectedMatrixRows (headerCells : List Str) (rowCells : List (List Str)) : List Obj :=
  rowCells.map (fun r =>
    (headerCells.map jsTrim).enum.map (fun p => (p.2, jsTrim (r.getD p.1 []))))

/-- Clean input for the matrix-strategy claim: a junk line is non-blank and
free of the delimiter and newlines; the header row has at least 2 cells, all
non-blank and pairwise distinct after trimming; there is at least one data
row and each data row has a non-blank cell within the header width. -/
def cleanMatrixCsv (d : Char) (j1 j2 : Str) (headerCells : List Str)
    (rowCells : List (List Str)) : Bool :=
  !(d == '\n') && !(d == '\r') &&
  cellNoDelim d j1 && !(jsTrim j1).isEmpty &&
  cellNoDelim d j2 && !(jsTrim j2).isEmpty &&
  decide (2 ≤ headerCells.length) &&
  headerCells.all (cellNoDelim d) &&
  (headerCells.map jsTrim).all (fun t => !t.isEmpty) &&
  decide ((headerCells.map jsTrim).Nodup) &&
  !rowCells.isEmpty &&
  rowCells.all (fun r =>
    r.all (cellNoDelim d) &&
    (r.take headerCells.length).any (fun cell => !(jsTrim cell).isEmpty))

/-- Bytes of a single-column plain-text file: newline or printable ASCII that
is no candidate delimiter and no quote. -/
def singleColByte (b : Nat) : Bool :=
  b == 0x0A || (0x20 ≤ b && b ≤ 0x7E && !(b == 0x2C) && !(b == 0x3B) && !(b == 0x7C) && !(b == 0x22))

/-- Whitespace-only ASCII bytes: tab, newline, carriage return, space. -/
def blankByte (b : Nat) : Bool := b == 9 || b == 10 || b == 13 || b == 32

/-! ### Character and trimming lemmas -/

theorem toNat_ofNat_valid {n : Nat} (h : n.isValidChar) : (Char.ofNat n).toNat = n := by
  simp [Char.ofNat, h, Char.ofNatAux, Char.toNat]
  rfl

theorem toNat_ofNat_lt {n : Nat} (h : n < 0xD800) : (Char.ofNat n).toNat = n :=
  toNat_ofNat_valid (Or.inl h)

theorem dropWhile_head_false {p : Char → Bool} :
    ∀ {l : Str} {c : Char}, (l.dropWhile p).head? = some c → p c = false := by
  intro l
  induction l with
  | nil => intro c h; simp [List.dropWhile] at h
  | cons a rest ih =>
    intro c h
    rw [List.dropWhile_cons] at h
    by_cases hp : p a
    · rw [if_pos hp] at h
      exact ih h
    · rw [if_neg hp] at h
      simp only [List.head?_cons, Option.some.injEq] at h
      rw [← h]
      simpa using hp

theorem dropWhile_of_head_false {p : Char → Bool} {l : Str}
    (h : ∀ c, l.head? = some c → p c = false) : l.dropWhile p = l := by
  cases l with
  | nil => rfl
  | cons a rest =>
    rw [List.dropWhile_cons, if_neg]
    simp [h a rfl]

theorem dropWhile_idem {p : Char → Bool} (l : Str) :
    (l.dropWhile p).dropWhile p = l.dropWhile p :=
  dropWhile_of_head_false (fun _ h => dropWhile_head_false h)

theorem jsTrim_eq (s : Str) : jsTrim s = dropTailSpace (s.dropWhile isJsSpace) := rfl

theorem dropWhile_eq_drop (p : Char → Bool) : ∀ l : Str, ∃ k, l.dropWhile p = l.drop k := by
  intro l
  induction l with
  | nil => exact ⟨0, rfl⟩
  | cons a rest ih =>
    obtain ⟨k, hk⟩ := ih
    rw [List.dropWhile_cons]
    by_cases hp : p a
    · exact ⟨k + 1, by rw [if_pos hp, List.drop_succ_cons, hk]⟩
    · exact ⟨0, by rw [if_neg hp]; rfl⟩

theorem dropTailSpace_take (t : Str) : ∃ m, dropTailSpace t = t.take m := by
  obtain ⟨k, hk⟩ := dropWhile_eq_drop isJsSpace t.reverse
  refine ⟨t.length - k, ?_⟩
  rw [dropTailSpace, hk, List.reverse_drop, List.reverse_reverse, List.length_reverse]

theorem head?_of_head?_take {t : Str} {m : Nat} {c : Char}
    (h : (t.take m).head? = some c) : t.head? = some c := by
  cases m with
  | zero => simp at h
  | succ m =>
    cases t with
    | nil => simp at h
    | cons a rest => simpa using h

theorem dropWhile_dropTailSpace {t : Str}
    (h : ∀ c, t.head? = some c → isJsSpace c = false) :
    (dropTailSpace t).dropWhile isJsSpace = dropTailSpace t := by
  apply dropWhile_of_head_false
  obtain ⟨m, hm⟩ := dropTailSpace_take t
  intro c hc
  rw [hm] at hc
  exact h c (head?_of_head?_take hc)

theorem dropTailSpace_idem (t : Str) : dropTailSpace (dropTailSpace t) = dropTailSpace t := by
  unfold dropTailSpace
  rw [List.reverse_reverse, dropWhile_idem]

/-- Trimming is idempotent, so already-trimmed names are untouched when
normalizeRows trims record keys again. -/
theorem jsTrim_idem (s : Str) : jsTrim (jsTrim s) = jsTrim s := by
  rw [jsTrim_eq, jsTrim_eq s, dropWhile_dropTailSpace (fun _ h => dropWhile_head_false h),
    dropTailSpace_idem]

theorem mem_of_mem_jsTrim {s : Str} {c : Char} (h : c ∈ jsTrim s) : c ∈ s := by
  rw [jsTrim_eq] at h
  rw [dropTailSpace, List.mem_reverse] at h
  have h2 := (List.dropWhile_sublist _ :
    ((s.dropWhile isJsSpace).reverse.dropWhile isJsSpace).Sublist (s.dropWhile isJsSpace).reverse).subset h
  rw [List.mem_reverse] at h2
  exact (List.dropWhile_sublist _ : (s.dropWhile isJsSpace).Sublist s).subset h2

theorem jsTrim_eq_nil_of_all {s : Str} (h : ∀ c ∈ s, isJsSpace c) : jsTrim s = [] := by
  have h1 : s.dropWhile isJsSpace = [] := List.dropWhile_eq_nil_iff.2 h
  rw [jsTrim_eq, h1]
  rfl

theorem mem_dropWhile_of_not {p : Char → Bool} :
    ∀ {l : Str} {c : Char}, c ∈ l → p c = false → c ∈ l.dropWhile p := by
  intro l
  induction l with
  | nil => intro c h; simp at h
  | cons a rest ih =>
    intro c h hc
    rw [List.dropWhile_cons]
    by_cases hp : p a
    · rw [if_pos hp]
      rcases List.mem_cons.1 h with rfl | h2
      · rw [hc] at hp; simp at hp
      · exact ih h2 hc
    · rw [if_neg hp]
      exact h

theorem jsTrim_ne_nil {s : Str} {c : Char} (hc : c ∈ s) (hns : isJsSpace c = false) :
    jsTrim s ≠ [] := by
  intro hnil
  rw [jsTrim_eq, dropTailSpace] at hnil
  rw [List.reverse_eq_nil_iff, List.dropWhile_eq_nil_iff] at hnil
  have h1 : c ∈ s.dropWhile isJsSpace := mem_dropWhile_of_not hc hns
  have h2 := hnil c (List.mem_reverse.2 h1)
  rw [hns] at h2
  exact Bool.false_ne_true h2

/-! ### Splitting and joining lemmas -/

theorem splitOnChar_ne_nil (d : Char) (s : Str) : splitOnChar d s ≠ [] := by
  induction s with
  | nil => simp [splitOnChar]
  | cons c rest ih =>
    rw [splitOnChar]
    by_cases h : c = d
    · simp [h]
    · rw [if_neg h]
      cases hs : splitOnChar d rest with
      | nil => simp
      | cons f fs => simp

theorem mem_of_mem_splitOnChar {d : Char} :
    ∀ {s f : Str} {c : Char}, f ∈ splitOnChar d s → c ∈ f → c ∈ s ∧ c ≠ d := by
  intro s
  induction s with
  | nil =>
    intro f c hf hc
    simp [splitOnChar] at hf
    subst hf
    simp at hc
  | cons a rest ih =>
    intro f c hf hc
    rw [splitOnChar] at hf
    by_cases h : a = d
    · rw [if_pos h] at hf
      rcases List.mem_cons.1 hf with rfl | hf2
      · simp at hc
      · obtain ⟨h1, h2⟩ := ih hf2 hc
        exact ⟨List.mem_cons_of_mem a h1, h2⟩
    · rw [if_neg h] at hf
      cases hs : splitOnChar d rest with
      | nil => exact absurd hs (splitOnChar_ne_nil d rest)
      | cons g gs =>
        rw [hs] at hf
        rcases List.mem_cons.1 hf with rfl | hf2
        · rcases List.mem_cons.1 hc with rfl | hc2
          · exact ⟨List.mem_cons_self c rest, fun hcd => h hcd⟩
          · obtain ⟨h1, h2⟩ := ih (hs ▸ List.mem_cons_self g gs) hc2
            exact ⟨List.mem_cons_of_mem a h1, h2⟩
        · obtain ⟨h1, h2⟩ := ih (hs ▸ List.mem_cons_of_mem g hf2) hc
          exact ⟨List.mem_cons_of_mem a h1, h2⟩

theorem splitOnChar_no_delim {d : Char} : ∀ {s : Str}, d ∉ s → splitOnChar d s = [s] := by
  intro s
  induction s with
  | nil => intro _; rfl
  | cons c rest ih =>
    intro h
    have hcd : ¬c = d := fun hc => h (hc ▸ List.mem_cons_self c rest)
    have hrest : d ∉ rest := fun hr => h (List.mem_cons_of_mem c hr)
    rw [splitOnChar, if_neg hcd, ih hrest]

theorem splitOnChar_append_delim {d : Char} :
    ∀ {x t : Str}, d ∉ x → splitOnChar d (x ++ d :: t) = x :: splitOnChar d t := by
  intro x
  induction x with
  | nil => intro t _; simp [splitOnChar]
  | cons c x' ih =>
    intro t h
    have hcd : ¬c = d := fun hc => h (hc ▸ List.mem_cons_self c x')
    have hx' : d ∉ x' := fun hr => h (List.mem_cons_of_mem c hr)
    rw [List.cons_append, splitOnChar, if_neg hcd, ih hx']

theorem joinChar_cons_cons (d : Char) (s y : Str) (rest : List Str) :
    joinChar d (s :: y :: rest) = s ++ d :: joinChar d (y :: rest) := rfl

theorem splitOnChar_joinChar {d : Char} :
    ∀ {xss : List Str}, xss ≠ [] → (∀ xs ∈ xss, d ∉ xs) →
      splitOnChar d (joinChar d xss) = xss := by
  intro xss
  induction xss with
  | nil => intro h _; exact absurd rfl h
  | cons x rest ih =>
    intro _ hall
    cases rest with
    | nil => exact splitOnChar_no_delim (hall x (List.mem_cons_self x []))
    | cons y rest' =>
      rw [joinChar_cons_cons, splitOnChar_append_delim (hall x (List.mem_cons_self x _)),
        ih (by simp) (fun xs hxs => hall xs (List.mem_cons_of_mem x hxs))]

theorem mem_joinChar {d : Char} :
    ∀ {xss : List Str} {c : Char}, c ∈ joinChar d xss → (∃ xs ∈ xss, c ∈ xs) ∨ c = d := by
  intro xss
  induction xss with
  | nil => intro c h; simp [joinChar] at h
  | cons x rest ih =>
    intro c h
    cases rest with
    | nil => exact Or.inl ⟨x, List.mem_cons_self x [], h⟩
    | cons y rest' =>
      rw [joinChar_cons_cons] at h
      rcases List.mem_append.1 h with h1 | h2
      · exact Or.inl ⟨x, List.mem_cons_self x _, h1⟩
      · rcases List.mem_cons.1 h2 with rfl | h3
        · exact Or.inr rfl
        · rcases ih h3 with ⟨xs, hxs, hc⟩ | hd
          · exact Or.inl ⟨xs, List.mem_cons_of_mem x hxs, hc⟩
          · exact Or.inr hd

/-! ### Selection lemmas: the stable descending sort picks the earliest
maximal-score candidate -/

theorem mem_insertDesc {c x : ParseCandidate} :
    ∀ {l : List ParseCandidate}, x ∈ insertDesc c l ↔ x = c ∨ x ∈ l := by
  intro l
  induction l with
  | nil => simp [insertDesc]
  | cons d rest ih =>
    rw [insertDesc]
    by_cases h : c.score < d.score
    · rw [if_pos h]
      simp only [List.mem_cons, ih]
      tauto
    · rw [if_neg h]
      simp only [List.mem_cons]

theorem mem_sortDesc {x : ParseCandidate} :
    ∀ {l : List ParseCandidate}, x ∈ sortDesc l ↔ x ∈ l := by
  intro l
  induction l with
  | nil => simp [sortDesc]
  | cons c rest ih =>
    rw [sortDesc, mem_insertDesc]
    simp only [List.mem_cons, ih]

theorem insertDesc_ne_nil {c : ParseCandidate} :
    ∀ {l : List ParseCandidate}, insertDesc c l ≠ [] := by
  intro l
  cases l with
  | nil => simp [insertDesc]
  | cons d rest =>
    rw [insertDesc]
    by_cases h : c.score < d.score
    · rw [if_pos h]; simp
    · rw [if_neg h]; simp

theorem sortDesc_eq_nil_iff {l : List ParseCandidate} : sortDesc l = [] ↔ l = [] := by
  cases l with
  | nil => simp [sortDesc]
  | cons c rest => simp [sortDesc, insertDesc_ne_nil]

theorem firstMax_cons_none {rest : List ParseCandidate} {c : ParseCandidate}
    (h : firstMax rest = none) : firstMax (c :: rest) = some c := by
  rw [firstMax, h]

theorem firstMax_cons_some {rest : List ParseCandidate} {c m : ParseCandidate}
    (h : firstMax rest = some m) :
    firstMax (c :: rest) = if m.score ≤ c.score then some c else some m := by
  rw [firstMax, h]

theorem firstMax_eq_none_iff {l : List ParseCandidate} : firstMax l = none ↔ l = [] := by
  cases l with
  | nil => simp [firstMax]
  | cons c rest =>
    cases hr : firstMax rest with
    | none => rw [firstMax_cons_none hr]; simp
    | some m =>
      rw [firstMax_cons_some hr]
      by_cases h : m.score ≤ c.score
      · rw [if_pos h]; simp
      · rw [if_neg h]; simp

theorem head?_sortDesc_eq_firstMax : ∀ l : List ParseCandidate,
    (sortDesc l).head? = firstMax l := by
  intro l
  induction l with
  | nil => rfl
  | cons c rest ih =>
    rw [sortDesc]
    cases hr : sortDesc rest with
    | nil =>
      have hre : rest = [] := sortDesc_eq_nil_iff.1 hr
      subst hre
      simp [insertDesc, firstMax]
    | cons m tail =>
      have hfm : firstMax rest = some m := by rw [← ih, hr]; rfl
      rw [firstMax_cons_some hfm, insertDesc]
      by_cases h : c.score < m.score
      · rw [if_pos h, if_neg (by omega : ¬m.score ≤ c.score)]
        simp
      · rw [if_neg h, if_pos (by omega : m.score ≤ c.score)]
        simp

theorem firstMax_mem : ∀ {l : List ParseCandidate} {c : ParseCandidate},
    firstMax l = some c → c ∈ l := by
  intro l
  induction l with
  | nil => intro c h; simp [firstMax] at h
  | cons a rest ih =>
    intro c h
    cases hr : firstMax rest with
    | none =>
      rw [firstMax_cons_none hr] at h
      simp at h
      exact h ▸ List.mem_cons_self a rest
    | some m =>
      rw [firstMax_cons_some hr] at h
      by_cases hs : m.score ≤ a.score
      · rw [if_pos hs] at h
        simp at h
        exact h ▸ List.mem_cons_self a rest
      · rw [if_neg hs] at h
        simp at h
        exact h ▸ List.mem_cons_of_mem a (ih hr)

theorem firstMax_isMax : ∀ {l : List ParseCandidate} {c : ParseCandidate},
    firstMax l = some c → ∀ d ∈ l, d.score ≤ c.score := by
  intro l
  induction l with
  | nil => intro c h; simp [firstMax] at h
  | cons a rest ih =>
    intro c h d hd
    cases hr : firstMax rest with
    | none =>
      have hre : rest = [] := firstMax_eq_none_iff.1 hr
      subst hre
      rw [firstMax_cons_none hr] at h
      simp at h
      simp at hd
      subst h
      subst hd
      exact le_refl _
    | some m =>
      rw [firstMax_cons_some hr] at h
      rcases List.mem_cons.1 hd with rfl | hd2
      · by_cases hs : m.score ≤ d.score
        · rw [if_pos hs] at h; simp at h; subst h; exact le_refl _
        · rw [if_neg hs] at h; simp at h; subst h; omega
      · have hdm : d.score ≤ m.score := ih hr d hd2
        by_cases hs : m.score ≤ a.score
        · rw [if_pos hs] at h; simp at h; subst h; omega
        · rw [if_neg hs] at h; simp at h; subst h; exact hdm

theorem firstMax_earliest : ∀ {l : List ParseCandidate} {c : ParseCandidate},
    firstMax l = some c → ∃ l1 l2, l = l1 ++ c :: l2 ∧ ∀ e ∈ l1, e.score < c.score := by
  intro l
  induction l with
  | nil => intro c h; simp [firstMax] at h
  | cons a rest ih =>
    intro c h
    cases hr : firstMax rest with
    | none =>
      rw [firstMax_cons_none hr] at h
      simp at h
      exact ⟨[], rest, by rw [h, List.nil_append], by simp⟩
    | some m =>
      rw [firstMax_cons_some hr] at h
      by_cases hs : m.score ≤ a.score
      · rw [if_pos hs] at h
        simp at h
        exact ⟨[], rest, by rw [h, List.nil_append], by simp⟩
      · rw [if_neg hs] at h
        simp at h
        subst h
        obtain ⟨l1, l2, heq, hlt⟩ := ih hr
        refine ⟨a :: l1, l2, by rw [heq, List.cons_append], ?_⟩
        intro e he
        rcases List.mem_cons.1 he with rfl | he2
        · omega
        · exact hlt e he2

theorem find?_prefix_false {p : ParseCandidate → Bool} :
    ∀ {l1 : List ParseCandidate} {c : ParseCandidate} {l2 : List ParseCandidate},
      (∀ e ∈ l1, p e = false) → p c = true → List.find? p (l1 ++ c :: l2) = some c := by
  intro l1
  induction l1 with
  | nil =>
    intro c l2 _ hc
    simp [List.find?_cons, hc]
  | cons e l1' ih =>
    intro c l2 h hc
    rw [List.cons_append, List.find?_cons, h e (List.mem_cons_self e l1')]
    exact ih (fun x hx => h x (List.mem_cons_of_mem e hx)) hc

theorem earliestMax_eq_firstMax (l : List ParseCandidate) : earliestMax l = firstMax l := by
  cases hl : firstMax l with
  | none =>
    have : l = [] := firstMax_eq_none_iff.1 hl
    subst this
    rfl
  | some c =>
    have hmax := firstMax_isMax hl
    obtain ⟨l1, l2, heq, hlt⟩ := firstMax_earliest hl
    rw [earliestMax]
    subst heq
    apply find?_prefix_false
    · intro e he
      have hce : ¬(c.score ≤ e.score) := by
        have := hlt e he
        omega
      rw [List.all_eq_false]
      refine ⟨c, by simp, by simpa using hce⟩
    · rw [List.all_eq_true]
      intro d hd
      simpa using hmax d hd

/-! ### Association-list (JS object) lemmas -/

theorem objInsert_of_not_mem {k v : Str} {o : Obj} (h : ∀ p ∈ o, p.1 ≠ k) :
    objInsert k v o = o ++ [(k, v)] := by
  rw [objInsert, if_neg]
  rw [List.any_eq_true]
  rintro ⟨p, hp, hb⟩
  exact h p hp (by simpa using hb)

theorem objInsert_length_le (k v : Str) (o : Obj) : o.length ≤ (objInsert k v o).length := by
  rw [objInsert]
  by_cases h : o.any (fun p => p.1 == k)
  · rw [if_pos h, List.length_map]
  · rw [if_neg h, List.length_append]
    omega

theorem foldl_objInsert_length_le :
    ∀ (pairs : List (Str × Str)) (acc : Obj),
      acc.length ≤ (pairs.foldl (fun acc p => objInsert p.1 p.2 acc) acc).length := by
  intro pairs
  induction pairs with
  | nil => intro acc; exact le_refl _
  | cons p rest ih =>
    intro acc
    calc acc.length ≤ (objInsert p.1 p.2 acc).length := objInsert_length_le p.1 p.2 acc
      _ ≤ _ := ih (objInsert p.1 p.2 acc)

theorem foldl_objInsert_nodup :
    ∀ {pairs : Obj} {acc : Obj},
      (∀ p ∈ pairs, ∀ q ∈ acc, q.1 ≠ p.1) → (pairs.map Prod.fst).Nodup →
      pairs.foldl (fun acc p => objInsert p.1 p.2 acc) acc = acc ++ pairs := by
  intro pairs
  induction pairs with
  | nil => intro acc _ _; simp
  | cons p rest ih =>
    intro acc hdisj hnd
    rw [List.foldl_cons]
    have h1 : objInsert p.1 p.2 acc = acc ++ [p] := by
      rw [objInsert_of_not_mem (fun q hq => hdisj p (List.mem_cons_self p rest) q hq)]
    rw [h1]
    rw [List.map_cons, List.nodup_cons] at hnd
    have h2 : rest.foldl (fun acc p => objInsert p.1 p.2 acc) (acc ++ [p]) =
        (acc ++ [p]) ++ rest := by
      apply ih
      · intro q hq r hr
        rcases List.mem_append.1 hr with hr1 | hr2
        · exact hdisj q (List.mem_cons_of_mem p hq) r hr1
        · have : r = p := by simpa using hr2
          subst this
          intro hrq
          exact hnd.1 (hrq ▸ List.mem_map_of_mem Prod.fst hq)
      · exact hnd.2
    rw [h2, List.append_assoc]
    rfl

/-! ### uniqueHeaders lemmas -/

theorem lookupCount_nil (k : Str) : lookupCount [] k = 0 := rfl

theorem lookupCount_cons (q : Str × Nat) (u : List (Str × Nat)) (key : Str) :
    lookupCount (q :: u) key = if q.1 = key then q.2 else lookupCount u key := by
  rw [lookupCount, List.find?_cons]
  by_cases h : q.1 = key
  · simp [h]
  · have hb : (q.1 == key) = false := by simpa using h
    simp only [hb]
    rw [if_neg h]
    rfl

theorem bumpEntry_fst (k : Str) (p : Str × Nat) : (bumpEntry k p).1 = p.1 := by
  rw [bumpEntry]
  split
  · next h => exact (beq_iff_eq.1 h).symm ▸ rfl
  · rfl

theorem lookupCount_map_bumpEntry {k key : Str} (hne : key ≠ k) :
    ∀ u : List (Str × Nat), lookupCount (u.map (bumpEntry k)) key = lookupCount u key := by
  intro u
  induction u with
  | nil => rfl
  | cons q u' ih =>
    rw [List.map_cons, lookupCount_cons, lookupCount_cons, bumpEntry_fst]
    by_cases h : q.1 = key
    · rw [if_pos h, if_pos h, bumpEntry]
      have : ¬(q.1 == k) = true := by
        simp only [beq_iff_eq]
        rw [h]
        exact hne
      rw [if_neg this]
    · rw [if_neg h, if_neg h, ih]

theorem lookupCount_append_single_ne {k key : Str} (hne : key ≠ k) :
    ∀ u : List (Str × Nat), lookupCount (u ++ [(k, 1)]) key = lookupCount u key := by
  intro u
  induction u with
  | nil =>
    rw [List.nil_append, lookupCount_cons, lookupCount_nil, if_neg (fun h => hne h.symm)]
  | cons q u' ih =>
    rw [List.cons_append, lookupCount_cons, lookupCount_cons]
    by_cases h : q.1 = key
    · rw [if_pos h, if_pos h]
    · rw [if_neg h, if_neg h, ih]

theorem lookupCount_map_bump_found {k : Str} :
    ∀ {u : List (Str × Nat)}, u.any (fun q => q.1 == k) = true →
      lookupCount (u.map (bumpEntry k)) k = lookupCount u k + 1 := by
  intro u
  induction u with
  | nil => intro h; simp at h
  | cons q u' ih =>
    intro h
    rw [List.map_cons, lookupCount_cons, lookupCount_cons, bumpEntry_fst]
    by_cases hq : q.1 = k
    · rw [if_pos hq, if_pos hq, bumpEntry, if_pos (by simpa using hq)]
    · rw [if_neg hq, if_neg hq]
      rw [List.any_cons] at h
      have hqb : (q.1 == k) = false := by simpa using hq
      rw [hqb] at h
      simp only [Bool.false_or] at h
      exact ih h

theorem lookupCount_not_found {k : Str} :
    ∀ {u : List (Str × Nat)}, u.any (fun q => q.1 == k) = false → lookupCount u k = 0 := by
  intro u
  induction u with
  | nil => intro _; rfl
  | cons q u' ih =>
    intro h
    rw [List.any_cons] at h
    have h1 : (q.1 == k) = false := by
      cases hq : (q.1 == k) <;> simp [hq] at h ⊢
    have h2 : u'.any (fun q => q.1 == k) = false := by
      rw [h1] at h
      simpa using h
    rw [lookupCount_cons, if_neg (by simpa using h1), ih h2]

theorem lookupCount_append_found {k : Str} :
    ∀ {u : List (Str × Nat)}, u.any (fun q => q.1 == k) = false →
      lookupCount (u ++ [(k, 1)]) k = 1 := by
  intro u
  induction u with
  | nil => intro _; rw [List.nil_append, lookupCount_cons, if_pos rfl]
  | cons q u' ih =>
    intro h
    rw [List.any_cons] at h
    have h1 : (q.1 == k) = false := by
      cases hq : (q.1 == k) <;> simp [hq] at h ⊢
    have h2 : u'.any (fun q => q.1 == k) = false := by
      rw [h1] at h
      simpa using h
    rw [List.cons_append, lookupCount_cons, if_neg (by simpa using h1), ih h2]

theorem bumpCount_lookup (k key : Str) (used : List (Str × Nat)) :
    lookupCount (bumpCount used k) key =
      if key = k then lookupCount used key + 1 else lookupCount used key := by
  by_cases hkey : key = k
  · subst hkey
    rw [if_pos rfl, bumpCount]
    cases hany : used.any (fun q => q.1 == key) with
    | true => rw [if_pos rfl]; exact lookupCount_map_bump_found hany
    | false =>
      rw [if_neg (by simp [hany])]
      rw [lookupCount_append_found hany, lookupCount_not_found hany]
  · rw [if_neg hkey, bumpCount]
    cases hany : used.any (fun q => q.1 == k) with
    | true => rw [if_pos rfl]; exact lookupCount_map_bumpEntry hkey used
    | false =>
      rw [if_neg (by simp [hany])]
      exact lookupCount_append_single_ne hkey used


theorem uniqueHeadersGo_cons (used : List (Str × Nat)) (i : Nat) (h : Str) (rest : List Str) :
    uniqueHeadersGo used i (h :: rest) =
      (if lookupCount used (headerBase h i) = 0 then headerBase h i
       else headerBase h i ++ '_' :: natDigits (lookupCount used (headerBase h i) + 1)) ::
        uniqueHeadersGo (bumpCount used (headerBase h i)) (i + 1) rest := rfl

theorem specDedupFrom_cons (done : List Str) (h : Str) (rest : List Str) :
    specDedupFrom done (h :: rest) =
      (if (done.filter (fun x => x == headerBase h done.length)).length = 0
        then headerBase h done.length
        else headerBase h done.length ++
          '_' :: natDigits ((done.filter (fun x => x == headerBase h done.length)).length + 1)) ::
        specDedupFrom (done ++ [headerBase h done.length]) rest := rfl

theorem uniqueHeadersGo_eq_specDedupFrom :
    ∀ (rest : List Str) (done : List Str) (used : List (Str × Nat)),
      (∀ b, lookupCount used b = (done.filter (fun x => x == b)).length) →
      uniqueHeadersGo used done.length rest = specDedupFrom done rest := by
  intro rest
  induction rest with
  | nil => intro done used _; rfl
  | cons hh tl ih =>
    intro done used hinv
    rw [uniqueHeadersGo_cons, specDedupFrom_cons, hinv (headerBase hh done.length)]
    congr 1
    have hlen : (done ++ [headerBase hh done.length]).length = done.length + 1 := by
      simp
    have := ih (done ++ [headerBase hh done.length]) (bumpCount used (headerBase hh done.length))
      (fun b => by
        rw [bumpCount_lookup, hinv b, List.filter_append, List.length_append]
        by_cases hb : b = headerBase hh done.length
        · rw [if_pos hb]
          have : ([headerBase hh done.length].filter (fun x => x == b)).length = 1 := by
            simp [hb]
          rw [this]
        · rw [if_neg hb]
          have : ([headerBase hh done.length].filter (fun x => x == b)).length = 0 := by
            simp
            exact fun heq => hb heq.symm
          rw [this]
          omega)
    rw [hlen] at this
    exact this

theorem uniqueHeaders_eq_specDedup (hs : List Str) : uniqueHeaders hs = specDedup hs := by
  rw [uniqueHeaders, specDedup]
  exact uniqueHeadersGo_eq_specDedupFrom hs [] [] (fun b => rfl)

theorem uniqueHeadersGo_length :
    ∀ (rest : List Str) (used : List (Str × Nat)) (i : Nat),
      (uniqueHeadersGo used i rest).length = rest.length := by
  intro rest
  induction rest with
  | nil => intro used i; rfl
  | cons hh tl ih =>
    intro used i
    rw [uniqueHeadersGo_cons, List.length_cons, List.length_cons, ih]

theorem uniqueHeaders_length (hs : List Str) : (uniqueHeaders hs).length = hs.length :=
  uniqueHeadersGo_length hs [] 0

theorem uniqueHeadersGo_id :
    ∀ (xs : List Str) (used : List (Str × Nat)) (i : Nat),
      (∀ x ∈ xs, jsTrim x = x) → (∀ x ∈ xs, x ≠ []) →
      (∀ x ∈ xs, lookupCount used x = 0) → xs.Nodup →
      uniqueHeadersGo used i xs = xs := by
  intro xs
  induction xs with
  | nil => intro used i _ _ _ _; rfl
  | cons hh tl ih =>
    intro used i htrim hne hcount hnd
    have hh_trim : jsTrim hh = hh := htrim hh (List.mem_cons_self hh tl)
    have hh_ne : hh ≠ [] := hne hh (List.mem_cons_self hh tl)
    have hbase : headerBase hh i = hh := by
      rw [headerBase, hh_trim, if_neg (by simpa [List.isEmpty_iff] using hh_ne)]
    rw [uniqueHeadersGo_cons, hbase,
      if_pos (hcount hh (List.mem_cons_self hh tl))]
    rw [List.nodup_cons] at hnd
    congr 1
    apply ih
    · exact fun x hx => htrim x (List.mem_cons_of_mem hh hx)
    · exact fun x hx => hne x (List.mem_cons_of_mem hh hx)
    · intro x hx
      rw [bumpCount_lookup, if_neg (fun hxh : x = hh => hnd.1 (hxh ▸ hx))]
      exact hcount x (List.mem_cons_of_mem hh hx)
    · exact hnd.2

theorem ne_append_cons (l : Str) (c : Char) (t : Str) : l ≠ l ++ c :: t := by
  intro h
  have := congrArg List.length h
  simp [List.length_append] at this

theorem uniqueHeaders_two_ne (h0 h1 : Str) (hs : List Str) :
    ∃ o0 o1 os, uniqueHeaders (h0 :: h1 :: hs) = o0 :: o1 :: os ∧ o0 ≠ o1 := by
  rw [uniqueHeaders, uniqueHeadersGo_cons, uniqueHeadersGo_cons, lookupCount_nil, if_pos rfl]
  have hbump : bumpCount [] (headerBase h0 0) = [(headerBase h0 0, 1)] := by
    rw [bumpCount, if_neg (by simp)]
    rfl
  rw [hbump, lookupCount_cons, lookupCount_nil]
  by_cases hb : headerBase h0 0 = headerBase h1 1
  · rw [if_pos hb, if_neg (by omega)]
    exact ⟨headerBase h0 0, headerBase h1 1 ++ '_' :: natDigits 2, _, rfl,
      fun heq => ne_append_cons (headerBase h0 0) '_' (natDigits 2) (hb ▸ heq)⟩
  · rw [if_neg hb, if_pos rfl]
    exact ⟨headerBase h0 0, headerBase h1 1, _, rfl, fun heq => hb heq⟩


/-! ### Quality-score counting lemmas -/

theorem quality_counts (t : Str) :
    ∀ acc : Nat × Nat × Nat,
      t.foldl
        (fun (acc : Nat × Nat × Nat) ch =>
          if ch = replChar then (acc.1, acc.2.1 + 1, acc.2.2)
          else if isCtrlCode ch then (acc.1, acc.2.1, acc.2.2 + 1)
          else if isReadableChar ch then (acc.1 + 1, acc.2.1, acc.2.2)
          else acc)
        acc =
      (acc.1 + countReadable t, acc.2.1 + countRepl t, acc.2.2 + countCtrl t) := by
  induction t with
  | nil => intro acc; simp [countReadable, countRepl, countCtrl]
  | cons c rest ih =>
    intro acc
    rw [List.foldl_cons]
    by_cases h1 : c = replChar
    · subst h1
      rw [if_pos rfl, ih]
      have hctrl : isCtrlCode replChar = false := by decide
      have hread : isReadableChar replChar = false := by decide
      simp [countReadable, countRepl, countCtrl, List.countP_cons, hctrl, hread]
      omega
    · rw [if_neg h1]
      have hrepl : (c == replChar) = false := by simpa using h1
      by_cases h2 : isCtrlCode c = true
      · rw [if_pos h2, ih]
        simp [countReadable, countRepl, countCtrl, List.countP_cons, h2, hrepl]
        omega
      · have hctrl : isCtrlCode c = false := by simpa using h2
        rw [if_neg h2]
        by_cases h3 : isReadableChar c = true
        · rw [if_pos h3, ih]
          simp [countReadable, countRepl, countCtrl, List.countP_cons, h3, hrepl, hctrl]
          omega
        · have h3f : isReadableChar c = false := by simpa using h3
          rw [if_neg h3, ih]
          simp [countReadable, countRepl, countCtrl, List.countP_cons, h3f, hrepl, hctrl]

/-! ### Claim C3 -/

/-- C3: a buffer whose first four bytes are the ZIP local-file-header magic
number 0x50 0x4B 0x03 0x04 is rejected by parseCsvBuffer with the early
wrong-file-type (zipped spreadsheet) error before any decoding, regardless of
the rest of the buffer; rows are never returned for such input. -/
theorem claim_C3_zip_magic_fails (buffer : Bytes)
    (h : buffer.take 4 = [0x50, 0x4B, 0x03, 0x04]) :
    parseCsvBuffer buffer = .error ParseErr.xlsxEarly := by
  have hsplit : buffer = [0x50, 0x4B, 0x03, 0x04] ++ buffer.drop 4 := by
    conv_lhs => rw [← List.take_append_drop 4 buffer]
    rw [h]
  rw [hsplit]
  have hx : isLikelyXlsx ([0x50, 0x4B, 0x03, 0x04] ++ buffer.drop 4) = true := by
    rw [isLikelyXlsx]
    simp [List.getD]
  rw [parseCsvBuffer, if_pos hx]

/-- C3 witness: a concrete five-byte buffer beginning with the magic number. -/
theorem claim_C3_zip_magic_fails_witness :
    parseCsvBuffer [0x50, 0x4B, 0x03, 0x04, 0x61] = .error ParseErr.xlsxEarly :=
  claim_C3_zip_magic_fails [0x50, 0x4B, 0x03, 0x04, 0x61] (by rfl)

/-! ### Claim C7 -/

/-- C7 counterexample: the raw headers a, a, a_2 de-duplicate to
a, a_2, a_2, whose names are not pairwise distinct — the distinctness part of
the claim fails on the code. -/
theorem claim_C7_counterexample :
    uniqueHeaders [['a'], ['a'], ['a', '_', '2']] =
        [['a'], ['a', '_', '2'], ['a', '_', '2']] ∧
      ¬ (uniqueHeaders [['a'], ['a'], ['a', '_', '2']]).Nodup := by
  constructor
  · decide
  · decide

/-- C7 (amended): header de-duplication preserves the length, turns blank
cells into col_(1-based index) and suffixes the (k+1)-th occurrence of a base
name with _(k+1), in order of appearance (the specDedup reformulation, whose
earlier-names accumulator makes both rules explicit); in particular raw
headers a, a, b become a, a_2, b, and two blank headers become col_1, col_2.
The emitted names need not be pairwise distinct, because a raw header may
coincide with a generated name. -/
theorem claim_C7_dedup_amended (hs : List Str) :
    uniqueHeaders hs = specDedup hs ∧
      (uniqueHeaders hs).length = hs.length ∧
      uniqueHeaders [['a'], ['a'], ['b']] = [['a'], ['a', '_', '2'], ['b']] ∧
      uniqueHeaders [[], [' ']] =
        [['c', 'o', 'l', '_', '1'], ['c', 'o', 'l', '_', '2']] :=
  ⟨uniqueHeaders_eq_specDedup hs, uniqueHeaders_length hs, by decide, by decide⟩


/-! ### Claim C2 -/

/-- C2 counterexample: on the comma-forced parse of the two-line text
(a,b then a single short cell x) the code computes score 16, while the
claim's formula — mismatches weighted once and only the other errors doubled
— gives 18: the code also charges every mismatch inside the doubled total
error count. -/
theorem claim_C2_counterexample :
    (parseWithHeader ['a', ',', 'b', '\n', 'x'] (some ',')).map ParseCandidate.score =
        some 16 ∧
      claimHeaderScore ['a', ',', 'b', '\n', 'x'] (some ',') = 18 ∧ (16 : Int) ≠ 18 :=
  ⟨by decide, by decide, by decide⟩

/-- C2 (amended): a surviving header-strategy candidate's score is 10 per
data row, plus 3 per header column, minus 3 per field-count-mismatch error
(each mismatch is charged once directly and twice more inside the total
error count), minus 2 per non-mismatch error, plus the text quality
sub-score. -/
theorem claim_C2_header_score_amended (text : Str) (delimiter : Option Char)
    (cand : ParseCandidate) (h : parseWithHeader text delimiter = some cand) :
    cand.score =
      ((normalizeRows (papaHeader text delimiter).data).length : Int) * 10 +
        ((papaHeader text delimiter).fields.length : Int) * 3 -
        (((papaHeader text delimiter).errors.filter
          (fun e => e == PapaErrKind.fieldMismatch)).length : Int) * 3 -
        (((papaHeader text delimiter).errors.filter
          (fun e => !(e == PapaErrKind.fieldMismatch))).length : Int) * 2 +
        rowsQualityScore (normalizeRows (papaHeader text delimiter).data) := by
  rw [parseWithHeader] at h
  split at h
  · exact absurd h (by simp)
  · have hc := (Option.some.inj h).symm
    rw [hc]
    have hsplit : ((papaHeader text delimiter).errors).length =
        (((papaHeader text delimiter).errors).filter
          (fun e => e == PapaErrKind.fieldMismatch)).length +
        (((papaHeader text delimiter).errors).filter
          (fun e => !(e == PapaErrKind.fieldMismatch))).length :=
      List.length_eq_length_filter_add _
    simp only []
    omega

/-- C2 amended witness: the amended formula holds on the counterexample
input. -/
theorem claim_C2_header_score_amended_witness :
    ∃ cand, parseWithHeader ['a', ',', 'b', '\n', 'x'] (some ',') = some cand ∧
      cand.score =
        ((normalizeRows (papaHeader ['a', ',', 'b', '\n', 'x'] (some ',')).data).length :
            Int) * 10 +
          ((papaHeader ['a', ',', 'b', '\n', 'x'] (some ',')).fields.length : Int) * 3 -
          (((papaHeader ['a', ',', 'b', '\n', 'x'] (some ',')).errors.filter
            (fun e => e == PapaErrKind.fieldMismatch)).length : Int) * 3 -
          (((papaHeader ['a', ',', 'b', '\n', 'x'] (some ',')).errors.filter
            (fun e => !(e == PapaErrKind.fieldMismatch))).length : Int) * 2 +
          rowsQualityScore
            (normalizeRows (papaHeader ['a', ',', 'b', '\n', 'x'] (some ',')).data) :=
  ⟨⟨[[(['a'], ['x'])]], 16⟩, by decide,
    claim_C2_header_score_amended ['a', ',', 'b', '\n', 'x'] (some ',')
      ⟨[[(['a'], ['x'])]], 16⟩ (by decide)⟩

/-! ### Claim C5 -/

/-- C5: the quality sub-score of a candidate is computed over the sample
built from the first row's header names joined with the values of the first
8 rows (first 6 columns of each); it equals the readable count minus 12
times the replacement count minus 12 times the control count, where the
control characters are the non-printable codes excluding tab, newline and
carriage return (codes 0-8, 11-12, 14-31); an empty sample text or an empty
row list scores -1000. -/
theorem claim_C5_quality (rows : List Obj) (text : Str) :
    rowsQualityScore rows =
        (if rows.length = 0 then -1000 else textQualityScore (sampleText rows)) ∧
      textQualityScore text =
        (if text.isEmpty then -1000
         else (countReadable text : Int) - 12 * countRepl text - 12 * countCtrl text) := by
  constructor
  · by_cases hr : rows.length = 0
    · rw [rowsQualityScore, if_pos hr, if_pos hr]
    · rw [rowsQualityScore, if_neg hr, if_neg hr, sampleText]
  · by_cases ht : text.isEmpty
    · rw [textQualityScore, if_pos ht, if_pos ht]
    · rw [textQualityScore, if_neg ht, if_neg ht]
      rw [quality_counts text (0, 0, 0)]
      simp only []
      omega


/-! ### Claims C1 and C10: selection over the full pool -/

/-- C1: whenever parseCsvBuffer returns rows, they are the rows of a
candidate of the full pool collectCandidates — which gathers every surviving
candidate of all five encodings and of all strategies (the auto-delimiter
header parse, the five forced-delimiter header parses and the five
forced-delimiter matrix parses), not only of the first encoding that decodes
— whose score is greater than or equal to every other pool candidate's. -/
theorem claim_C1_best_of_full_pool (buffer : Bytes) (rows : List Obj)
    (h : parseCsvBuffer buffer = .ok rows) :
    ∃ c ∈ collectCandidates buffer, c.rows = rows ∧
      ∀ d ∈ collectCandidates buffer, d.score ≤ c.score := by
  rw [parseCsvBuffer] at h
  split at h
  · exact absurd h (by simp)
  · cases heq : sortDesc (collectCandidates buffer) with
    | nil =>
      rw [heq] at h
      simp at h
    | cons best tail =>
      rw [heq] at h
      simp at h
      have hfm : firstMax (collectCandidates buffer) = some best := by
        rw [← head?_sortDesc_eq_firstMax, heq]
        rfl
      exact ⟨best, firstMax_mem hfm, h, firstMax_isMax hfm⟩

/-- C1 witness: the two-line comma table a,b / 1,2 as bytes. -/
theorem claim_C1_best_of_full_pool_witness :
    ∃ c ∈ collectCandidates [0x61, 0x2C, 0x62, 0x0A, 0x31, 0x2C, 0x32],
      c.rows = [[(['a'], ['1']), (['b'], ['2'])]] ∧
        ∀ d ∈ collectCandidates [0x61, 0x2C, 0x62, 0x0A, 0x31, 0x2C, 0x32],
          d.score ≤ c.score :=
  claim_C1_best_of_full_pool [0x61, 0x2C, 0x62, 0x0A, 0x31, 0x2C, 0x32]
    [[(['a'], ['1']), (['b'], ['2'])]] (by rfl)

/-- C10: when several pool candidates share the maximal score, parseCsvBuffer
returns the rows of the earliest-generated of them (earliestMax: the first
pool entry whose score is at least every other's), because the descending
sort is stable; and the pool is generated in the order the claim states —
encodings utf-8, euc-kr, cp949, utf-16le, utf-16be, and within one encoding
the auto-delimiter header parse first, then for each delimiter in list order
(comma, semicolon, tab, pipe, fullwidth comma) the forced-delimiter header
parse before the matrix parse. -/
theorem claim_C10_tie_break_generation_order (buffer : Bytes) (rows : List Obj)
    (h : parseCsvBuffer buffer = .ok rows) :
    (∃ c, earliestMax (collectCandidates buffer) = some c ∧ rows = c.rows) ∧
      collectCandidates buffer =
        ENCODING_CANDIDATES.flatMap (fun e =>
          match decodeWithEncoding buffer e with
          | none => []
          | some text =>
            if text.isEmpty then []
            else
              (parseWithHeader text none).toList ++
                DELIMITER_CANDIDATES.flatMap (fun d =>
                  (parseWithHeader text (some d)).toList ++
                    (parseWithMatrix text (some d)).toList)) := by
  refine ⟨?_, rfl⟩
  rw [parseCsvBuffer] at h
  split at h
  · exact absurd h (by simp)
  · cases heq : sortDesc (collectCandidates buffer) with
    | nil =>
      rw [heq] at h
      simp at h
    | cons best tail =>
      rw [heq] at h
      simp at h
      have hfm : firstMax (collectCandidates buffer) = some best := by
        rw [← head?_sortDesc_eq_firstMax, heq]
        rfl
      exact ⟨best, by rw [earliestMax_eq_firstMax, hfm], h.symm⟩

/-- C10 witness: on the concrete table a,b / 1,2 the earliest maximal
candidate's rows are returned. -/
theorem claim_C10_tie_break_generation_order_witness :
    (∃ c, earliestMax (collectCandidates [0x61, 0x2C, 0x62, 0x0A, 0x31, 0x2C, 0x32]) =
        some c ∧ [[(['a'], ['1']), (['b'], ['2'])]] = c.rows) ∧
      collectCandidates [0x61, 0x2C, 0x62, 0x0A, 0x31, 0x2C, 0x32] =
        ENCODING_CANDIDATES.flatMap (fun e =>
          match decodeWithEncoding [0x61, 0x2C, 0x62, 0x0A, 0x31, 0x2C, 0x32] e with
          | none => []
          | some text =>
            if text.isEmpty then []
            else
              (parseWithHeader text none).toList ++
                DELIMITER_CANDIDATES.flatMap (fun d =>
                  (parseWithHeader text (some d)).toList ++
                    (parseWithMatrix text (some d)).toList)) :=
  claim_C10_tie_break_generation_order [0x61, 0x2C, 0x62, 0x0A, 0x31, 0x2C, 0x32]
    [[(['a'], ['1']), (['b'], ['2'])]] (by rfl)


/-! ### normalizeText membership lemmas -/

theorem mem_stripBom {t : Str} {c : Char} (h : c ∈ stripBom t) : c ∈ t := by
  cases t with
  | nil => exact h
  | cons a rest =>
    rw [stripBom] at h
    by_cases ha : a.toNat = 0xFEFF
    · rw [if_pos ha] at h
      exact List.mem_cons_of_mem a h
    · rwa [if_neg ha] at h

theorem stripSepLine_drop (t : Str) : ∃ k, stripSepLine t = t.drop k := by
  match t with
  | [] => exact ⟨0, rfl⟩
  | [a] => exact ⟨0, rfl⟩
  | [a, b] => exact ⟨0, rfl⟩
  | [a, b, c] => exact ⟨0, rfl⟩
  | a :: b :: c :: d :: rest =>
    rw [stripSepLine]
    by_cases hsep : lowerAscii a = 's' ∧ lowerAscii b = 'e' ∧ lowerAscii c = 'p' ∧ d = '='
    · rw [if_pos hsep]
      match rest with
      | [] => exact ⟨0, rfl⟩
      | e :: rest2 =>
        rw [sepAfterEq]
        by_cases he : isRegexDot e = true
        · rw [if_pos he]
          cases hend : sepLineEnd rest2 with
          | none => exact ⟨0, rfl⟩
          | some n => exact ⟨n + 5, rfl⟩
        · rw [if_neg he]
          exact ⟨0, rfl⟩
    · rw [if_neg hsep]
      exact ⟨0, rfl⟩

theorem mem_stripSepLine {t : Str} {c : Char} (h : c ∈ stripSepLine t) : c ∈ t := by
  obtain ⟨k, hk⟩ := stripSepLine_drop t
  rw [hk] at h
  exact List.mem_of_mem_drop h

theorem mem_stripCrLf {c : Char} : ∀ {t : Str}, c ∈ stripCrLf t → c ∈ t ∨ c = '\n' := by
  intro t
  induction t using stripCrLf.induct with
  | case1 rest ih =>
    intro h
    rw [stripCrLf] at h
    rcases List.mem_cons.1 h with rfl | h2
    · exact Or.inr rfl
    · rcases ih h2 with h3 | h3
      · exact Or.inl (by simp [h3])
      · exact Or.inr h3
  | case2 c' rest hne ih =>
    intro h
    rw [stripCrLf] at h
    · rcases List.mem_cons.1 h with rfl | h2
      · exact Or.inl (List.mem_cons_self c rest)
      · rcases ih h2 with h3 | h3
        · exact Or.inl (List.mem_cons_of_mem c' h3)
        · exact Or.inr h3
    · exact hne
  | case3 =>
    intro h
    rw [stripCrLf] at h
    simp at h

theorem newline_mem_stripCrLf : ∀ {t : Str}, '\n' ∈ stripCrLf t → '\n' ∈ t := by
  intro t
  induction t using stripCrLf.induct with
  | case1 rest ih =>
    intro _
    simp
  | case2 c' rest hne ih =>
    intro h
    rw [stripCrLf] at h
    · rcases List.mem_cons.1 h with heq | h2
      · exact heq ▸ List.mem_cons_self c' rest
      · exact List.mem_cons_of_mem c' (ih h2)
    · exact hne
  | case3 =>
    intro h
    rw [stripCrLf] at h
    simp at h

theorem mem_crToLf {t : Str} {c : Char} (h : c ∈ crToLf t) : c ∈ t ∨ c = '\n' := by
  rw [crToLf, List.mem_map] at h
  obtain ⟨x, hx, hxc⟩ := h
  by_cases hxr : x = '\r'
  · rw [if_pos hxr] at hxc
    exact Or.inr hxc.symm
  · rw [if_neg hxr] at hxc
    exact Or.inl (hxc ▸ hx)

theorem normalizeText_blank {t : Str} (h : ∀ c ∈ t, isJsSpace c) :
    ∀ c ∈ normalizeText t, isJsSpace c := by
  intro c hc
  rw [normalizeText] at hc
  rcases mem_crToLf hc with h1 | h1
  · rcases mem_stripCrLf h1 with h2 | h2
    · exact h c (mem_stripBom (mem_stripSepLine h2))
    · subst h2; decide
  · subst h1; decide

theorem normalizeText_no_newline {t : Str} (h1 : '\n' ∉ t) (h2 : '\r' ∉ t) :
    '\n' ∉ normalizeText t := by
  intro hmem
  rw [normalizeText, crToLf, List.mem_map] at hmem
  obtain ⟨x, hx, hxc⟩ := hmem
  by_cases hxr : x = '\r'
  · subst hxr
    rcases mem_stripCrLf hx with hm | hm
    · exact h2 (mem_stripBom (mem_stripSepLine hm))
    · exact absurd hm (by decide)
  · rw [if_neg hxr] at hxc
    subst hxc
    exact h1 (mem_stripBom (mem_stripSepLine (newline_mem_stripCrLf hx)))


/-! ### Grid emptiness and no-candidate lemmas -/

theorem papaGrid_small_of_no_newline {text : Str} (h : '\n' ∉ text) (d : Char) :
    (papaGrid d text).length ≤ 1 := by
  rw [papaGrid, papaCells, splitOnChar_no_delim h, List.map_cons, List.map_nil]
  exact List.length_filter_le _ _

theorem papaGrid_nil_of_blank {text : Str} (h : ∀ c ∈ text, isJsSpace c) (d : Char) :
    papaGrid d text = [] := by
  rw [papaGrid, List.filter_eq_nil_iff]
  intro row hrow
  rw [papaCells, List.mem_map] at hrow
  obtain ⟨line, hline, rfl⟩ := hrow
  have hblank : isBlankRow (splitOnChar d line) = true := by
    rw [isBlankRow, List.all_eq_true]
    intro cell hcell
    have hall : ∀ c ∈ cell, isJsSpace c := fun c hc =>
      h c (mem_of_mem_splitOnChar hline (mem_of_mem_splitOnChar hcell hc).1).1
    rw [jsTrim_eq_nil_of_all hall]
    rfl
  simp [hblank]

theorem papaHeader_data_nil_of_small {text : Str}
    (h : ∀ d, (papaGrid d text).length ≤ 1) (dOpt : Option Char) :
    (papaHeader text dOpt).data = [] := by
  rw [papaHeader, papaHeaderCore]
  cases hg : papaGrid (papaDelim text dOpt).1 text with
  | nil => rfl
  | cons hrow rest =>
    have hr : rest = [] := by
      have hlen := h (papaDelim text dOpt).1
      rw [hg] at hlen
      simpa using hlen
    subst hr
    rfl

theorem parseWithHeader_none_of_small {text : Str}
    (h : ∀ d, (papaGrid d text).length ≤ 1) (dOpt : Option Char) :
    parseWithHeader text dOpt = none := by
  rw [parseWithHeader]
  rw [if_pos]
  right
  rw [papaHeader_data_nil_of_small h dOpt]
  rfl

theorem parseWithMatrix_none_of_small {text : Str}
    (h : ∀ d, (papaGrid d text).length ≤ 1) (dOpt : Option Char) :
    parseWithMatrix text dOpt = none := by
  rw [parseWithMatrix]
  rw [if_pos]
  have := h (papaDelim text dOpt).1
  have hm : (papaMatrix text dOpt).1 = papaGrid (papaDelim text dOpt).1 text := rfl
  rw [hm]
  omega

theorem candidatesFor_nil_of_small {text : Str}
    (h : ∀ d, (papaGrid d text).length ≤ 1) : candidatesFor text = [] := by
  rw [candidatesFor, parseWithHeader_none_of_small h none]
  simp [DELIMITER_CANDIDATES, parseWithHeader_none_of_small h,
    parseWithMatrix_none_of_small h]

theorem candidatesFor_nil_of_no_newline {text : Str} (h : '\n' ∉ text) :
    candidatesFor text = [] :=
  candidatesFor_nil_of_small (fun d => papaGrid_small_of_no_newline h d)

theorem candidatesFor_nil_of_blank {text : Str} (h : ∀ c ∈ text, isJsSpace c) :
    candidatesFor text = [] :=
  candidatesFor_nil_of_small (fun d => by rw [papaGrid_nil_of_blank h d]; exact Nat.zero_le 1)

/-! ### Decoder lemmas -/

theorem utf8Decode_cons_lt {b : Nat} {rest : Bytes} (hb : b < 0x80) :
    utf8Decode (b :: rest) = Char.ofNat b :: utf8Decode rest := by
  rw [utf8Decode.eq_def]
  split
  · next heq => simp at heq
  · next b' rest' heq =>
    injection heq with h1 h2
    subst h1
    subst h2
    rw [if_pos hb]

theorem eucKrDecode_cons_lt {b : Nat} {rest : Bytes} (hb : b < 0x80) :
    eucKrDecode (b :: rest) = Char.ofNat b :: eucKrDecode rest := by
  rw [eucKrDecode.eq_def]
  split
  · next heq => simp at heq
  · next b' rest' heq =>
    injection heq with h1 h2
    subst h1
    subst h2
    rw [if_pos hb]

theorem utf8Decode_ascii : ∀ {bs : Bytes}, (∀ b ∈ bs, b < 0x80) →
    utf8Decode bs = bs.map Char.ofNat := by
  intro bs
  induction bs with
  | nil => intro _; rfl
  | cons b rest ih =>
    intro h
    rw [utf8Decode_cons_lt (h b (List.mem_cons_self b rest)), List.map_cons,
      ih (fun x hx => h x (List.mem_cons_of_mem b hx))]

theorem eucKrDecode_ascii : ∀ {bs : Bytes}, (∀ b ∈ bs, b < 0x80) →
    eucKrDecode bs = bs.map Char.ofNat := by
  intro bs
  induction bs with
  | nil => intro _; rfl
  | cons b rest ih =>
    intro h
    rw [eucKrDecode_cons_lt (h b (List.mem_cons_self b rest)), List.map_cons,
      ih (fun x hx => h x (List.mem_cons_of_mem b hx))]

theorem utf16Decode_nil (le : Bool) : utf16Decode le [] = [] := rfl

theorem utf16Decode_single (le : Bool) (x : Nat) : utf16Decode le [x] = [replChar] := by
  rw [utf16Decode.eq_def]

theorem utf16Decode_cons2 {le : Bool} {b1 b2 : Nat} {rest : Bytes}
    (hu : utf16Unit le b1 b2 < 0xD800 ∨ 0xDFFF < utf16Unit le b1 b2) :
    utf16Decode le (b1 :: b2 :: rest) =
      Char.ofNat (utf16Unit le b1 b2) :: utf16Decode le rest := by
  rw [utf16Decode.eq_def]
  split
  · next heq => simp at heq
  · next x heq => simp at heq
  · next b1' b2' rest' heq =>
    injection heq with h1 h2
    injection h2 with h2 h3
    subst h1
    subst h2
    subst h3
    rw [if_pos hu]

theorem utf16Unit_bounds {le : Bool} {b1 b2 : Nat} (h1 : 9 ≤ b1 ∧ b1 ≤ 0x7E)
    (h2 : 9 ≤ b2 ∧ b2 ≤ 0x7E) :
    2313 ≤ utf16Unit le b1 b2 ∧ utf16Unit le b1 b2 < 0xD800 := by
  rw [utf16Unit]
  cases le
  · simp
    omega
  · simp
    omega

theorem utf16Decode_chars (le : Bool) :
    ∀ (n : Nat) (bs : Bytes), bs.length ≤ n → (∀ b ∈ bs, 9 ≤ b ∧ b ≤ 0x7E) →
      ∀ c ∈ utf16Decode le bs, (2313 ≤ c.toNat ∧ c.toNat < 0xD800) ∨ c = replChar := by
  intro n
  induction n with
  | zero =>
    intro bs hlen h c hc
    have hnil : bs = [] := List.length_eq_zero.1 (Nat.le_zero.1 hlen)
    subst hnil
    simp [utf16Decode_nil] at hc
  | succ n ih =>
    intro bs hlen h c hc
    cases bs with
    | nil => simp [utf16Decode_nil] at hc
    | cons b1 rest1 =>
      cases rest1 with
      | nil =>
        rw [utf16Decode_single] at hc
        simp at hc
        exact Or.inr hc
      | cons b2 rest =>
        have hb1 := h b1 (by simp)
        have hb2 := h b2 (by simp)
        have hband := @utf16Unit_bounds le b1 b2 hb1 hb2
        rw [utf16Decode_cons2 (Or.inl hband.2)] at hc
        rcases List.mem_cons.1 hc with rfl | hc2
        · left
          rw [toNat_ofNat_lt hband.2]
          exact hband
        · have hlen2 : rest.length ≤ n := by
            simp at hlen
            omega
          exact ih rest hlen2
            (fun x hx => h x (List.mem_cons_of_mem b1 (List.mem_cons_of_mem b2 hx))) c hc2


/-! ### Candidate non-emptiness and pool emptiness lemmas -/

theorem parseWithHeader_rows_ne_nil {text : Str} {dOpt : Option Char} {c : ParseCandidate}
    (h : parseWithHeader text dOpt = some c) : c.rows ≠ [] := by
  rw [parseWithHeader] at h
  split at h
  · exact absurd h (by simp)
  · next hcond =>
    rw [not_or] at hcond
    have hc := Option.some.inj h
    intro hnil
    rw [← hc] at hnil
    simp at hnil
    exact hcond.2 (by rw [hnil]; rfl)

theorem utf16_no_newline_cr {le : Bool} {buffer : Bytes}
    (h : ∀ b ∈ buffer, 9 ≤ b ∧ b ≤ 0x7E) :
    '\n' ∉ utf16Decode le buffer ∧ '\r' ∉ utf16Decode le buffer := by
  constructor
  · intro hmem
    rcases utf16Decode_chars le buffer.length buffer (le_refl _) h _ hmem with hb | hb
    · simp at hb
    · exact absurd hb (by decide)
  · intro hmem
    rcases utf16Decode_chars le buffer.length buffer (le_refl _) h _ hmem with hb | hb
    · simp at hb
    · exact absurd hb (by decide)

theorem parseWithMatrix_rows_ne_nil {text : Str} {dOpt : Option Char} {c : ParseCandidate}
    (h : parseWithMatrix text dOpt = some c) : c.rows ≠ [] := by
  rw [parseWithMatrix] at h
  split at h
  · exact absurd h (by simp)
  · split at h
    · exact absurd h (by simp)
    · split at h
      · exact absurd h (by simp)
      · simp only [] at h
        split at h
        · exact absurd h (by simp)
        · split at h
          · exact absurd h (by simp)
          · next hrows =>
            intro hnil
            apply hrows
            rw [List.length_eq_zero]
            rw [← Option.some.inj h] at hnil
            exact hnil

theorem mem_candidatesFor {text : Str} {c : ParseCandidate} (h : c ∈ candidatesFor text) :
    (∃ dOpt, parseWithHeader text dOpt = some c) ∨
      (∃ d, parseWithMatrix text (some d) = some c) := by
  rw [candidatesFor, List.mem_append] at h
  rcases h with h1 | h1
  · left
    refine ⟨none, ?_⟩
    cases hp : parseWithHeader text none with
    | none => rw [hp] at h1; simp at h1
    | some c' =>
      rw [hp] at h1
      simp at h1
      subst h1
      rfl
  · rw [List.mem_flatMap] at h1
    obtain ⟨d, _, hc⟩ := h1
    rw [List.mem_append] at hc
    rcases hc with h2 | h2
    · left
      refine ⟨some d, ?_⟩
      cases hp : parseWithHeader text (some d) with
      | none => rw [hp] at h2; simp at h2
      | some c' =>
        rw [hp] at h2
        simp at h2
        subst h2
        rfl
    · right
      refine ⟨d, ?_⟩
      cases hp : parseWithMatrix text (some d) with
      | none => rw [hp] at h2; simp at h2
      | some c' =>
        rw [hp] at h2
        simp at h2
        subst h2
        rfl

theorem mem_collectCandidates {buffer : Bytes} {c : ParseCandidate}
    (h : c ∈ collectCandidates buffer) :
    ∃ e ∈ ENCODING_CANDIDATES, c ∈ candidatesFor (normalizeText (decodeBytes e buffer)) := by
  rw [collectCandidates, List.mem_flatMap] at h
  obtain ⟨e, he, hc⟩ := h
  refine ⟨e, he, ?_⟩
  rw [decodeWithEncoding] at hc
  simp at hc
  exact hc.2

theorem collectCandidates_rows_ne_nil {buffer : Bytes} {c : ParseCandidate}
    (h : c ∈ collectCandidates buffer) : c.rows ≠ [] := by
  obtain ⟨e, _, hc⟩ := mem_collectCandidates h
  rcases mem_candidatesFor hc with ⟨dOpt, hp⟩ | ⟨d, hp⟩
  · exact parseWithHeader_rows_ne_nil hp
  · exact parseWithMatrix_rows_ne_nil hp

theorem isLikelyXlsx_false_of_blank {buffer : Bytes} (h : ∀ b ∈ buffer, blankByte b) :
    isLikelyXlsx buffer = false := by
  cases buffer with
  | nil => rfl
  | cons b0 t =>
    have hb := h b0 (by simp)
    rw [blankByte] at hb
    simp at hb
    rw [isLikelyXlsx]
    have h50 : (List.getD (b0 :: t) 0 0 == 0x50) = false := by
      simp
      omega
    rw [h50]
    simp

theorem isJsSpace_of_blankByte {b : Nat} (h : blankByte b = true) :
    isJsSpace (Char.ofNat b) = true := by
  rw [blankByte] at h
  simp at h
  rcases h with ((rfl | rfl) | rfl) | rfl <;> decide

theorem encodingContribution_nil {t : Str} (hnil : candidatesFor t = []) :
    (if t.isEmpty then ([] : List ParseCandidate) else candidatesFor t) = [] := by
  by_cases he : t.isEmpty
  · rw [if_pos he]
  · rw [if_neg he, hnil]

theorem collectCandidates_nil_blank {buffer : Bytes} (h : ∀ b ∈ buffer, blankByte b) :
    collectCandidates buffer = [] := by
  have hascii : ∀ b ∈ buffer, b < 0x80 := by
    intro b hb
    have := h b hb
    rw [blankByte] at this
    simp at this
    omega
  have hbounds : ∀ b ∈ buffer, 9 ≤ b ∧ b ≤ 0x7E := by
    intro b hb
    have := h b hb
    rw [blankByte] at this
    simp at this
    omega
  have hblankMap : ∀ c ∈ normalizeText (buffer.map Char.ofNat), isJsSpace c := by
    apply normalizeText_blank
    intro c hc
    rw [List.mem_map] at hc
    obtain ⟨b, hb, rfl⟩ := hc
    exact isJsSpace_of_blankByte (h b hb)
  have h8 : candidatesFor (normalizeText (utf8Decode buffer)) = [] := by
    rw [utf8Decode_ascii hascii]
    exact candidatesFor_nil_of_blank hblankMap
  have hK : candidatesFor (normalizeText (eucKrDecode buffer)) = [] := by
    rw [eucKrDecode_ascii hascii]
    exact candidatesFor_nil_of_blank hblankMap
  have h16 : ∀ le, candidatesFor (normalizeText (utf16Decode le buffer)) = [] := by
    intro le
    obtain ⟨hn, hr⟩ := @utf16_no_newline_cr le _ hbounds
    exact candidatesFor_nil_of_no_newline (normalizeText_no_newline hn hr)
  rw [collectCandidates, ENCODING_CANDIDATES]
  simp only [List.flatMap_cons, List.flatMap_nil, List.append_nil, decodeWithEncoding,
    decodeBytes]
  rw [encodingContribution_nil h8, encodingContribution_nil hK,
    encodingContribution_nil (h16 true), encodingContribution_nil (h16 false)]
  simp

/-! ### Claim C9 -/

/-- C9: an empty buffer, or a buffer made entirely of blank ASCII bytes
(tab, newline, carriage return, space) — so every decoded text is entirely
blank — makes parseCsvBuffer fail with the generic unrecognized-format error
because the candidate pool is empty; and whenever parseCsvBuffer returns
instead of failing, the returned row sequence contains at least one row. -/
theorem claim_C9_blank_fails_result_nonempty (buffer : Bytes) :
    ((buffer = [] ∨ ∀ b ∈ buffer, blankByte b) →
        parseCsvBuffer buffer = .error ParseErr.unrecognized) ∧
      ∀ rows, parseCsvBuffer buffer = .ok rows → rows ≠ [] := by
  constructor
  · intro hbl
    have hblank : ∀ b ∈ buffer, blankByte b := by
      rcases hbl with rfl | hb
      · intro b hb
        simp at hb
      · exact hb
    have hc := collectCandidates_nil_blank hblank
    have hx := isLikelyXlsx_false_of_blank hblank
    rw [parseCsvBuffer, if_neg (by rw [hx]; simp), hc]
    rw [show sortDesc [] = [] from rfl]
    rw [if_neg (by rw [hx]; simp)]
  · intro rows hok
    rw [parseCsvBuffer] at hok
    split at hok
    · exact absurd hok (by simp)
    · cases heq : sortDesc (collectCandidates buffer) with
      | nil =>
        rw [heq] at hok
        simp at hok
      | cons best tail =>
        rw [heq] at hok
        simp at hok
        have hbest : best ∈ collectCandidates buffer := by
          rw [← mem_sortDesc, heq]
          exact List.mem_cons_self best tail
        rw [← hok]
        exact collectCandidates_rows_ne_nil hbest

/-- C9 witness: the empty buffer fails with the generic error, and the
concrete table a,b / 1,2 returns a non-empty row list. -/
theorem claim_C9_blank_fails_result_nonempty_witness :
    parseCsvBuffer [] = .error ParseErr.unrecognized ∧
      ([[(['a'], ['1']), (['b'], ['2'])]] : List Obj) ≠ [] :=
  ⟨(claim_C9_blank_fails_result_nonempty []).1 (Or.inl rfl),
    (claim_C9_blank_fails_result_nonempty [0x61, 0x2C, 0x62, 0x0A, 0x31, 0x2C, 0x32]).2
      [[(['a'], ['1']), (['b'], ['2'])]] (by rfl)⟩


/-! ### Single-column lemmas -/

theorem mem_normalizeText {t : Str} {c : Char} (h : c ∈ normalizeText t) :
    c ∈ t ∨ c = '\n' := by
  rw [normalizeText] at h
  rcases mem_crToLf h with h1 | h1
  · rcases mem_stripCrLf h1 with h2 | h2
    · exact Or.inl (mem_stripBom (mem_stripSepLine h2))
    · exact Or.inr h2
  · exact Or.inr h1

theorem getD_zero_or_mem (l : Bytes) (n : Nat) : l.getD n 0 = 0 ∨ l.getD n 0 ∈ l := by
  by_cases h : n < l.length
  · right
    rw [List.getD_eq_getElem l 0 h]
    exact List.getElem_mem h
  · left
    exact List.getD_eq_default l 0 (by omega)

theorem isLikelyXlsx_false_of_singleCol {buffer : Bytes}
    (h : ∀ b ∈ buffer, singleColByte b) : isLikelyXlsx buffer = false := by
  rw [isLikelyXlsx]
  have h3 : (buffer.getD 2 0 == 0x03) = false := by
    rcases getD_zero_or_mem buffer 2 with hz | hm
    · rw [hz]
      rfl
    · have := h _ hm
      rw [singleColByte] at this
      simp at this ⊢
      omega
  rw [h3]
  simp

theorem papaGrid_single_cells {text : Str} {d : Char} (h : d ∉ text) :
    ∀ row ∈ papaGrid d text, row.length = 1 := by
  intro row hrow
  rw [papaGrid, List.mem_filter] at hrow
  rw [papaCells, List.mem_map] at hrow
  obtain ⟨⟨line, hline, rfl⟩, _⟩ := hrow
  have hdl : d ∉ line := fun hd => h (mem_of_mem_splitOnChar hline hd).1
  rw [splitOnChar_no_delim hdl]
  rfl

theorem sniffDelim_mem_delims {text : Str} {d : Char} (h : sniffDelim text = some d) :
    d ∈ DELIMITER_CANDIDATES := by
  have hm : d ∈ SNIFF_DELIMS := List.mem_of_find?_eq_some h
  rw [SNIFF_DELIMS] at hm
  rw [DELIMITER_CANDIDATES]
  simp at hm
  rcases hm with rfl | rfl | rfl | rfl <;> simp

theorem mem_delims_toNat {c : Char} (h : c ∈ DELIMITER_CANDIDATES) :
    c.toNat = 44 ∨ c.toNat = 59 ∨ c.toNat = 9 ∨ c.toNat = 124 ∨ c.toNat = 65292 := by
  rw [DELIMITER_CANDIDATES] at h
  fin_cases h <;> decide

theorem papaDelim_mem {text : Str} {dOpt : Option Char}
    (hopt : ∀ d, dOpt = some d → d ∈ DELIMITER_CANDIDATES) :
    (papaDelim text dOpt).1 ∈ DELIMITER_CANDIDATES := by
  cases dOpt with
  | some d => exact hopt d rfl
  | none =>
    rw [papaDelim]
    cases hs : sniffDelim text with
    | some d => exact sniffDelim_mem_delims hs
    | none =>
      rw [DELIMITER_CANDIDATES]
      simp

theorem parseWithHeader_none_nodelim {text : Str}
    (h : ∀ c ∈ text, c ∉ DELIMITER_CANDIDATES) {dOpt : Option Char}
    (hopt : ∀ d, dOpt = some d → d ∈ DELIMITER_CANDIDATES) :
    parseWithHeader text dOpt = none := by
  have hd : (papaDelim text dOpt).1 ∉ text := fun hmem => h _ hmem (papaDelim_mem hopt)
  rw [parseWithHeader, if_pos]
  left
  rw [papaHeader, papaHeaderCore]
  cases hg : papaGrid (papaDelim text dOpt).1 text with
  | nil => simp
  | cons hrow rest =>
    have hlen : hrow.length = 1 :=
      papaGrid_single_cells hd hrow (hg ▸ List.mem_cons_self hrow rest)
    simp [hlen]

theorem parseWithMatrix_none_nodelim {text : Str}
    (h : ∀ c ∈ text, c ∉ DELIMITER_CANDIDATES) {dOpt : Option Char}
    (hopt : ∀ d, dOpt = some d → d ∈ DELIMITER_CANDIDATES) :
    parseWithMatrix text dOpt = none := by
  have hd : (papaDelim text dOpt).1 ∉ text := fun hmem => h _ hmem (papaDelim_mem hopt)
  rw [parseWithMatrix]
  split
  · rfl
  · have hnone : ((papaMatrix text dOpt).1).findIdx?
        (fun row => decide (2 ≤ (row.filter (fun v => !(jsTrim v).isEmpty)).length)) =
          none := by
      apply List.findIdx?_eq_none_iff.mpr
      intro row hrow
      have hlen : row.length = 1 := papaGrid_single_cells hd row hrow
      have hfle : (row.filter (fun v => !(jsTrim v).isEmpty)).length ≤ 1 := by
        calc (row.filter (fun v => !(jsTrim v).isEmpty)).length ≤ row.length :=
              List.length_filter_le _ _
          _ = 1 := hlen
      simp
      omega
    rw [hnone]

theorem candidatesFor_nil_nodelim {text : Str}
    (h : ∀ c ∈ text, c ∉ DELIMITER_CANDIDATES) : candidatesFor text = [] := by
  rw [candidatesFor]
  rw [parseWithHeader_none_nodelim h (fun d hd => by simp at hd)]
  rw [DELIMITER_CANDIDATES]
  have hh : ∀ d ∈ DELIMITER_CANDIDATES, parseWithHeader text (some d) = none :=
    fun d hd => parseWithHeader_none_nodelim h (fun d' hd' => by
      rw [Option.some.inj hd'] at hd
      exact hd)
  have hm : ∀ d ∈ DELIMITER_CANDIDATES, parseWithMatrix text (some d) = none :=
    fun d hd => parseWithMatrix_none_nodelim h (fun d' hd' => by
      rw [Option.some.inj hd'] at hd
      exact hd)
  rw [DELIMITER_CANDIDATES] at hh hm
  simp only [List.flatMap_cons, List.flatMap_nil, List.append_nil]
  rw [hh ',' (by simp), hm ',' (by simp), hh ';' (by simp), hm ';' (by simp),
    hh '\t' (by simp), hm '\t' (by simp), hh '|' (by simp), hm '|' (by simp),
    hh '，' (by simp), hm '，' (by simp)]
  rfl

theorem singleCol_text_nodelim {buffer : Bytes} (h : ∀ b ∈ buffer, singleColByte b) :
    ∀ c ∈ normalizeText (buffer.map Char.ofNat), c ∉ DELIMITER_CANDIDATES := by
  intro c hc
  rcases mem_normalizeText hc with h1 | h1
  · rw [List.mem_map] at h1
    obtain ⟨b, hb, rfl⟩ := h1
    have hsb := h b hb
    rw [singleColByte] at hsb
    simp at hsb
    have hlt : b < 0xD800 := by omega
    intro hmem
    have htn := mem_delims_toNat hmem
    rw [toNat_ofNat_lt hlt] at htn
    omega
  · subst h1
    rw [DELIMITER_CANDIDATES]
    decide

theorem collectCandidates_nil_singleCol {buffer : Bytes}
    (h : ∀ b ∈ buffer, singleColByte b) : collectCandidates buffer = [] := by
  have hascii : ∀ b ∈ buffer, b < 0x80 := by
    intro b hb
    have := h b hb
    rw [singleColByte] at this
    simp at this
    omega
  have hbounds : ∀ b ∈ buffer, 9 ≤ b ∧ b ≤ 0x7E := by
    intro b hb
    have := h b hb
    rw [singleColByte] at this
    simp at this
    omega
  have h8 : candidatesFor (normalizeText (utf8Decode buffer)) = [] := by
    rw [utf8Decode_ascii hascii]
    exact candidatesFor_nil_nodelim (singleCol_text_nodelim h)
  have hK : candidatesFor (normalizeText (eucKrDecode buffer)) = [] := by
    rw [eucKrDecode_ascii hascii]
    exact candidatesFor_nil_nodelim (singleCol_text_nodelim h)
  have h16 : ∀ le, candidatesFor (normalizeText (utf16Decode le buffer)) = [] := by
    intro le
    obtain ⟨hn, hr⟩ := @utf16_no_newline_cr le _ hbounds
    exact candidatesFor_nil_of_no_newline (normalizeText_no_newline hn hr)
  rw [collectCandidates, ENCODING_CANDIDATES]
  simp only [List.flatMap_cons, List.flatMap_nil, List.append_nil, decodeWithEncoding,
    decodeBytes]
  rw [encodingContribution_nil h8, encodingContribution_nil hK,
    encodingContribution_nil (h16 true), encodingContribution_nil (h16 false)]
  simp


/-! ### Matrix rows have at least two columns -/

theorem foldl_matrixBody_length_le {row : List Str} :
    ∀ (l : List (Nat × Str)) (acc : Obj),
      acc.length ≤
        (l.foldl (fun acc p => objInsert p.2 (jsTrim (row.getD p.1 [])) acc) acc).length := by
  intro l
  induction l with
  | nil => intro acc; exact le_refl _
  | cons p rest ih =>
    intro acc
    rw [List.foldl_cons]
    calc acc.length ≤ (objInsert p.2 (jsTrim (row.getD p.1 [])) acc).length :=
          objInsert_length_le _ _ acc
      _ ≤ _ := ih _

theorem buildMatrixRow_two_le {o0 o1 : Str} {os : List Str} (hne : o0 ≠ o1)
    (row : List Str) : 2 ≤ (buildMatrixRow (o0 :: o1 :: os) row).length := by
  rw [buildMatrixRow, List.enum_cons, List.enumFrom_cons, List.foldl_cons, List.foldl_cons]
  simp only []
  have s1 : objInsert o0 (jsTrim (row.getD 0 [])) [] =
      [(o0, jsTrim (row.getD 0 []))] := objInsert_of_not_mem (by simp)
  have s2 : objInsert o1 (jsTrim (row.getD 1 [])) [(o0, jsTrim (row.getD 0 []))] =
      [(o0, jsTrim (row.getD 0 [])), (o1, jsTrim (row.getD 1 []))] :=
    objInsert_of_not_mem (by
      intro p hp
      simp at hp
      subst hp
      exact hne)
  rw [s1, s2]
  have hfold := @foldl_matrixBody_length_le row (List.enumFrom (1 + 1) os)
    [(o0, jsTrim (row.getD 0 [])), (o1, jsTrim (row.getD 1 []))]
  simpa using hfold

theorem buildMatrixRow_uniqueHeaders_two_le {L : List Str} (hlen : 2 ≤ L.length)
    (src : List Str) : 2 ≤ (buildMatrixRow (uniqueHeaders L) src).length := by
  cases L with
  | nil => simp at hlen
  | cons r0 rest0 =>
    cases rest0 with
    | nil => simp at hlen
    | cons r1 rs =>
      obtain ⟨o0, o1, os, hdec, hone⟩ := uniqueHeaders_two_ne r0 r1 rs
      rw [hdec]
      exact buildMatrixRow_two_le hone src

theorem parseWithMatrix_rows_two_le {text : Str} {dOpt : Option Char}
    {cand : ParseCandidate} (h : parseWithMatrix text dOpt = some cand) :
    ∀ row ∈ cand.rows, 2 ≤ row.length := by
  rw [parseWithMatrix] at h
  split at h
  · exact absurd h (by simp)
  · split at h
    · exact absurd h (by simp)
    · split at h
      · exact absurd h (by simp)
      · simp only [] at h
        split at h
        · exact absurd h (by simp)
        · next hhead =>
          split at h
          · exact absurd h (by simp)
          · intro row hrow
            rw [← Option.some.inj h] at hrow
            have h3 := (List.mem_filter.1 hrow).1
            rw [List.mem_map] at h3
            obtain ⟨src, _, rfl⟩ := h3
            have hlen := Nat.not_lt.1 hhead
            rw [uniqueHeaders_length] at hlen
            exact buildMatrixRow_uniqueHeaders_two_le hlen src

/-! ### Claim C8 -/

/-- C8 counterexample: for the buffer with lines a,b then x then y, the pool
contains a header-strategy candidate (the comma parse, whose two data lines
are short) all of whose rows are single-column — the claimed pool-wide
at-least-two-columns invariant fails. -/
theorem claim_C8_counterexample :
    ∃ c ∈ collectCandidates [0x61, 0x2C, 0x62, 0x0A, 0x78, 0x0A, 0x79],
      c.rows ≠ [] ∧ ∀ row ∈ c.rows, row.length < 2 := by
  decide

/-- C8 (amended): every matrix-strategy candidate's rows each have at least
two columns (the first two de-duplicated header names always differ, and
missing cells are padded); and single-column input — whose bytes are
newlines or printable ASCII free of every candidate delimiter and of the
quote — is rejected by the header and the matrix strategies alike, so the
decoder fails.  The pool-wide invariant of the original claim holds only for
the matrix strategy: a header-strategy candidate keeps just the keys present
in each short row. -/
theorem claim_C8_two_columns_amended :
    (∀ (text : Str) (dOpt : Option Char) (cand : ParseCandidate),
        parseWithMatrix text dOpt = some cand → ∀ row ∈ cand.rows, 2 ≤ row.length) ∧
      ∀ buffer : Bytes, (∀ b ∈ buffer, singleColByte b) →
        parseCsvBuffer buffer = .error ParseErr.unrecognized := by
  constructor
  · exact fun text dOpt cand h => parseWithMatrix_rows_two_le h
  · intro buffer h
    have hc := collectCandidates_nil_singleCol h
    have hx := isLikelyXlsx_false_of_singleCol h
    rw [parseCsvBuffer, if_neg (by rw [hx]; simp), hc,
      show sortDesc [] = [] from rfl, if_neg (by rw [hx]; simp)]

/-- C8 amended witness: the comma matrix parse of a,b / 1,2 yields only
two-column rows, and the single-column buffer hi / yo fails. -/
theorem claim_C8_two_columns_amended_witness :
    (∃ cand, parseWithMatrix ['a', ',', 'b', '\n', '1', ',', '2'] (some ',') = some cand ∧
        ∀ row ∈ cand.rows, 2 ≤ row.length) ∧
      parseCsvBuffer [0x68, 0x69, 0x0A, 0x79, 0x6F] = .error ParseErr.unrecognized :=
  ⟨⟨_, rfl, fun row hrow =>
      claim_C8_two_columns_amended.1 ['a', ',', 'b', '\n', '1', ',', '2'] (some ',') _
        rfl row hrow⟩,
    claim_C8_two_columns_amended.2 [0x68, 0x69, 0x0A, 0x79, 0x6F] (by decide)⟩

/-! ### Claim C6: the matrix strategy recovers a table behind junk lines -/

theorem cellNoDelim_spec {d : Char} {s : Str} (h : cellNoDelim d s = true) :
    d ∉ s ∧ '\n' ∉ s ∧ '\r' ∉ s := by
  rw [cellNoDelim, List.all_eq_true] at h
  exact ⟨fun hm => by simpa using h d hm, fun hm => by simpa using h '\n' hm,
    fun hm => by simpa using h '\r' hm⟩

theorem newline_not_mem_joinChar {d : Char} {cells : List Str} (hd : d ≠ '\n')
    (h : ∀ s ∈ cells, cellNoDelim d s = true) : '\n' ∉ joinChar d cells := by
  intro hmem
  rcases mem_joinChar hmem with ⟨xs, hxs, hcm⟩ | heq
  · exact (cellNoDelim_spec (h xs hxs)).2.1 hcm
  · exact hd heq.symm

theorem isBlankRow_eq_false {row : List Str} {cell : Str} (hm : cell ∈ row)
    (hnb : (jsTrim cell).isEmpty = false) : isBlankRow row = false := by
  rw [isBlankRow, List.all_eq_false]
  exact ⟨cell, hm, by simp [hnb]⟩

theorem buildMatrixRow_nodup {hs : List Str} (hnd : hs.Nodup) (row : List Str) :
    buildMatrixRow hs row = hs.enum.map (fun p => (p.2, jsTrim (row.getD p.1 []))) := by
  have key : (hs.enum.map (fun p : Nat × Str => ((p.2 : Str), jsTrim (row.getD p.1 [])))).foldl
      (fun acc q => objInsert q.1 q.2 acc) [] =
      [] ++ hs.enum.map (fun p : Nat × Str => ((p.2 : Str), jsTrim (row.getD p.1 []))) := by
    apply foldl_objInsert_nodup
    · intro p _ q hq
      exact absurd hq (List.not_mem_nil q)
    · rw [List.map_map,
        show (Prod.fst ∘ fun p : Nat × Str => ((p.2 : Str), jsTrim (row.getD p.1 []))) =
          Prod.snd from rfl, List.enum_map_snd]
      exact hnd
  calc buildMatrixRow hs row
      = (hs.enum.map (fun p : Nat × Str => ((p.2 : Str), jsTrim (row.getD p.1 [])))).foldl
          (fun acc q => objInsert q.1 q.2 acc) [] := by
        rw [buildMatrixRow, List.foldl_map]
    _ = hs.enum.map (fun p => (p.2, jsTrim (row.getD p.1 []))) := by
        rw [key, List.nil_append]

theorem papaGrid_matrixText {d : Char} {j1 j2 : Str} {H : List Str} {R : List (List Str)}
    (hc : cleanMatrixCsv d j1 j2 H R = true) :
    papaGrid d (matrixText d j1 j2 H R) = [j1] :: [j2] :: H :: R := by
  simp only [cleanMatrixCsv, Bool.and_eq_true] at hc
  obtain ⟨⟨⟨⟨⟨⟨⟨⟨⟨⟨⟨h1, h2⟩, h3⟩, h4⟩, h5⟩, h6⟩, h7⟩, h8⟩, h9⟩, h10⟩, h11⟩, h12⟩ := hc
  have hdn : d ≠ '\n' := by simpa using h1
  have hH2 : 2 ≤ H.length := of_decide_eq_true h7
  have hHne : H ≠ [] := by
    intro h
    rw [h] at hH2
    simp at hH2
  have hHcell : ∀ s ∈ H, cellNoDelim d s = true := List.all_eq_true.1 h8
  have hHnb : ∀ s ∈ H, ((jsTrim s).isEmpty) = false := by
    intro s hs
    have := List.all_eq_true.1 h9 (jsTrim s) (List.mem_map_of_mem jsTrim hs)
    simpa using this
  have hRcell : ∀ r ∈ R, ∀ s ∈ r, cellNoDelim d s = true := by
    intro r hr
    have := List.all_eq_true.1 h12 r hr
    rw [Bool.and_eq_true] at this
    exact List.all_eq_true.1 this.1
  have hRany : ∀ r ∈ R, ∃ cell ∈ r, ((jsTrim cell).isEmpty) = false := by
    intro r hr
    have := List.all_eq_true.1 h12 r hr
    rw [Bool.and_eq_true] at this
    obtain ⟨cell, hcm, hcb⟩ := List.any_eq_true.1 this.2
    exact ⟨cell, List.mem_of_mem_take hcm, by simpa using hcb⟩
  have hlines : splitOnChar '\n' (matrixText d j1 j2 H R) =
      j1 :: j2 :: joinChar d H :: R.map (joinChar d) := by
    rw [matrixText]
    apply splitOnChar_joinChar (by simp)
    intro xs hxs
    rcases List.mem_cons.1 hxs with rfl | hxs
    · exact (cellNoDelim_spec h3).2.1
    rcases List.mem_cons.1 hxs with rfl | hxs
    · exact (cellNoDelim_spec h5).2.1
    rcases List.mem_cons.1 hxs with rfl | hxs
    · exact newline_not_mem_joinChar hdn hHcell
    obtain ⟨r, hr, rfl⟩ := List.mem_map.1 hxs
    exact newline_not_mem_joinChar hdn (hRcell r hr)
  have hRne : ∀ r ∈ R, r ≠ [] := by
    intro r hr h
    obtain ⟨cell, hcm, _⟩ := hRany r hr
    rw [h] at hcm
    exact absurd hcm (List.not_mem_nil cell)
  have hmapR : R.map (splitOnChar d ∘ joinChar d) = R := by
    have h1 : R.map (splitOnChar d ∘ joinChar d) = R.map id :=
      List.map_congr_left (fun r hr => splitOnChar_joinChar (hRne r hr)
        (fun s hs => (cellNoDelim_spec (hRcell r hr s hs)).1))
    rw [h1, List.map_id]
  have hcells : papaCells d (matrixText d j1 j2 H R) = [j1] :: [j2] :: H :: R := by
    rw [papaCells, hlines, List.map_cons, List.map_cons, List.map_cons,
      splitOnChar_no_delim (cellNoDelim_spec h3).1,
      splitOnChar_no_delim (cellNoDelim_spec h5).1,
      splitOnChar_joinChar hHne (fun s hs => (cellNoDelim_spec (hHcell s hs)).1),
      List.map_map, hmapR]
  rw [papaGrid, hcells]
  apply List.filter_eq_self.2
  intro row hrow
  rcases List.mem_cons.1 hrow with rfl | hrow
  · show (!isBlankRow [j1]) = true
    rw [isBlankRow_eq_false (List.mem_cons_self j1 []) (by simpa using h4)]
    rfl
  rcases List.mem_cons.1 hrow with rfl | hrow
  · show (!isBlankRow [j2]) = true
    rw [isBlankRow_eq_false (List.mem_cons_self j2 []) (by simpa using h6)]
    rfl
  rcases List.mem_cons.1 hrow with rfl | hrow
  · show (!isBlankRow row) = true
    obtain ⟨x, hx⟩ := List.exists_mem_of_ne_nil row hHne
    rw [isBlankRow_eq_false hx (hHnb x hx)]
    rfl
  · show (!isBlankRow row) = true
    obtain ⟨cell, hcm, hcb⟩ := hRany row hrow
    rw [isBlankRow_eq_false hcm hcb]
    rfl

theorem any_enumFrom_row {r : List Str} :
    ∀ (hs : List Str) (k i : Nat), i < hs.length →
      ((jsTrim (r.getD (k + i) [])).isEmpty) = false →
      ((hs.enumFrom k).map (fun p => (p.2, jsTrim (r.getD p.1 [])))).any
        (fun p => !p.2.isEmpty) = true := by
  intro hs
  induction hs with
  | nil =>
    intro k i hi
    simp at hi
  | cons h0 tl ih =>
    intro k i hi hnb
    rw [List.enumFrom_cons, List.map_cons, List.any_cons, Bool.or_eq_true]
    cases i with
    | zero =>
      exact Or.inl (by simpa using hnb)
    | succ n =>
      refine Or.inr (ih (k + 1) n ?_ ?_)
      · simpa using Nat.lt_of_succ_lt_succ (by simpa using hi)
      · have hx : k + 1 + n = k + (n + 1) := by omega
        rw [hx]
        exact hnb

theorem parseWithMatrix_clean {d : Char} {j1 j2 : Str} {H : List Str}
    {R : List (List Str)} (hc : cleanMatrixCsv d j1 j2 H R = true) :
    ∃ cand, parseWithMatrix (matrixText d j1 j2 H R) (some d) = some cand ∧
      cand.rows = expectedMatrixRows H R := by
  have hgrid := papaGrid_matrixText hc
  simp only [cleanMatrixCsv, Bool.and_eq_true] at hc
  obtain ⟨⟨⟨⟨⟨⟨⟨⟨⟨⟨⟨h1, h2⟩, h3⟩, h4⟩, h5⟩, h6⟩, h7⟩, h8⟩, h9⟩, h10⟩, h11⟩, h12⟩ := hc
  have hH2 : 2 ≤ H.length := of_decide_eq_true h7
  have hHnb : ∀ s ∈ H, ((jsTrim s).isEmpty) = false := by
    intro s hs
    have := List.all_eq_true.1 h9 (jsTrim s) (List.mem_map_of_mem jsTrim hs)
    simpa using this
  have hnd : (H.map jsTrim).Nodup := of_decide_eq_true h10
  have hRpos : 0 < R.length := List.length_pos.2 (List.isEmpty_eq_false.1 (by simpa using h11))
  have hmx : papaMatrix (matrixText d j1 j2 H R) (some d) = ([j1] :: [j2] :: H :: R, []) := by
    rw [papaMatrix, show papaDelim (matrixText d j1 j2 H R) (some d) = (d, []) from rfl, hgrid]
  have hsmall : ∀ s : Str,
      ¬((fun row => decide (2 ≤ (row.filter (fun v => !(jsTrim v).isEmpty)).length)) [s] =
        true) := by
    intro s hcontra
    simp only [decide_eq_true_eq] at hcontra
    have hle := List.length_filter_le (fun v => !(jsTrim v).isEmpty) [s]
    simp only [List.length_cons, List.length_nil] at hle
    omega
  have hHtrue : ((fun row => decide (2 ≤ (row.filter (fun v => !(jsTrim v).isEmpty)).length)) H) =
      true := by
    simp only [decide_eq_true_eq]
    rw [List.filter_eq_self.2 (fun s hs => by simp [hHnb s hs])]
    exact hH2
  have hfind : List.findIdx?
      (fun row => decide (2 ≤ (row.filter (fun v => !(jsTrim v).isEmpty)).length))
      ([j1] :: [j2] :: H :: R) = some 2 := by
    rw [List.findIdx?_cons, if_neg (hsmall j1), List.findIdx?_cons, if_neg (hsmall j2),
      List.findIdx?_cons, if_pos hHtrue]
  have hhdr : uniqueHeaders (H.map jsTrim) = H.map jsTrim := by
    rw [uniqueHeaders]
    apply uniqueHeadersGo_id
    · intro x hx
      obtain ⟨h0, _, rfl⟩ := List.mem_map.1 hx
      exact jsTrim_idem h0
    · intro x hx
      obtain ⟨h0, hh0, rfl⟩ := List.mem_map.1 hx
      have hb := hHnb h0 hh0
      intro hnil
      rw [hnil] at hb
      simp at hb
    · intro x _
      exact lookupCount_nil x
    · exact hnd
  have hbuild : R.map (buildMatrixRow (H.map jsTrim)) = expectedMatrixRows H R := by
    rw [expectedMatrixRows]
    exact List.map_congr_left (fun r _ => buildMatrixRow_nodup hnd r)
  have hfilter : (expectedMatrixRows H R).filter
      (fun row => row.any (fun p => !p.2.isEmpty)) = expectedMatrixRows H R := by
    apply List.filter_eq_self.2
    intro obj hobj
    rw [expectedMatrixRows] at hobj
    obtain ⟨r, hr, rfl⟩ := List.mem_map.1 hobj
    have h12r := List.all_eq_true.1 h12 r hr
    rw [Bool.and_eq_true] at h12r
    obtain ⟨cell, hcm, hcb⟩ := List.any_eq_true.1 h12r.2
    obtain ⟨i, him, hri⟩ := List.mem_take_iff_getElem.1 hcm
    have hiH : i < (H.map jsTrim).length := by
      rw [List.length_map]
      exact (lt_min_iff.1 him).1
    have hgetd : r.getD i [] = cell := by
      rw [List.getD_eq_getElem r [] (lt_min_iff.1 him).2]
      exact hri
    have hcnb : ((jsTrim (r.getD (0 + i) [])).isEmpty) = false := by
      rw [Nat.zero_add, hgetd]
      simpa using hcb
    have hany := any_enumFrom_row (H.map jsTrim) 0 i hiH hcnb
    show (((H.map jsTrim).enum.map (fun p => (p.2, jsTrim (r.getD p.1 [])))).any
      (fun p => !p.2.isEmpty)) = true
    rw [List.enum_eq_enumFrom]
    exact hany
  rw [parseWithMatrix]
  simp only []
  rw [hmx]
  dsimp only
  rw [if_neg (by simp only [List.length_cons]; omega)]
  split
  · next heq =>
    rw [hfind] at heq
    exact absurd heq (by simp)
  · next i heq =>
    rw [hfind] at heq
    injection heq with hi
    subst hi
    rw [if_neg (by simp only [List.length_cons]; omega)]
    rw [show (([j1] :: [j2] :: H :: R : List (List Str)).getD 2 []) = H from rfl]
    rw [hhdr]
    rw [if_neg (by simp only [List.length_map]; omega)]
    rw [show (([j1] :: [j2] :: H :: R : List (List Str)).drop (2 + 1)) = R from rfl]
    rw [hbuild, hfilter]
    rw [if_neg (by rw [expectedMatrixRows, List.length_map]; omega)]
    exact ⟨_, rfl, rfl⟩

/-- **C6**: in the matrix strategy the header row is the first grid row with
at least 2 non-blank cells; the candidate is rejected when no such row exists
or when it is the last grid row; and for input with two non-blank junk lines
followed by a clean header row and data rows, forced-delimiter matrix parsing
produces a candidate whose rows zip each data row positionally against the
de-duplicated trimmed header names, missing trailing cells becoming empty
strings. -/
theorem claim_C6_matrix_recovers_table (d : Char) (j1 j2 : Str) (H : List Str)
    (R : List (List Str)) (hc : cleanMatrixCsv d j1 j2 H R = true) :
    ((∀ (text : Str) (dOpt : Option Char),
        (papaMatrix text dOpt).1.findIdx?
            (fun row => decide (2 ≤ (row.filter (fun v => !(jsTrim v).isEmpty)).length)) =
            none →
          parseWithMatrix text dOpt = none) ∧
      (∀ (text : Str) (dOpt : Option Char) (i : Nat),
        (papaMatrix text dOpt).1.findIdx?
            (fun row => decide (2 ≤ (row.filter (fun v => !(jsTrim v).isEmpty)).length)) =
            some i →
          (papaMatrix text dOpt).1.length - 1 ≤ i → parseWithMatrix text dOpt = none)) ∧
    ∃ cand, parseWithMatrix (matrixText d j1 j2 H R) (some d) = some cand ∧
      cand.rows = expectedMatrixRows H R := by
  refine ⟨⟨?_, ?_⟩, parseWithMatrix_clean hc⟩
  · intro text dOpt h
    rw [parseWithMatrix]
    simp only []
    by_cases hl : (papaMatrix text dOpt).1.length < 2
    · rw [if_pos hl]
    · rw [if_neg hl, h]
  · intro text dOpt i h hlast
    rw [parseWithMatrix]
    simp only []
    by_cases hl : (papaMatrix text dOpt).1.length < 2
    · rw [if_pos hl]
    · rw [if_neg hl, h]
      exact if_pos hlast

theorem claim_C6_matrix_recovers_table_witness :
    cleanMatrixCsv ',' ['R'] ['2', '0', '2', '4'] [['a'], ['b']]
        [[['1'], ['2']]] = true ∧
    ∃ cand, parseWithMatrix (matrixText ',' ['R'] ['2', '0', '2', '4'] [['a'], ['b']]
        [[['1'], ['2']]]) (some ',') = some cand ∧
      cand.rows = expectedMatrixRows [['a'], ['b']] [[['1'], ['2']]] :=
  ⟨by decide, (claim_C6_matrix_recovers_table ',' ['R'] ['2', '0', '2', '4'] [['a'], ['b']]
      [[['1'], ['2']]] (by decide)).2⟩

/-! ### Claim C4: a clean comma-delimited ASCII table round-trips -/

theorem cleanChar_facts {c : Char} (h : cleanChar c = true) :
    0x20 ≤ c.toNat ∧ c.toNat ≤ 0x7E ∧ c ≠ ',' ∧ c ≠ ';' ∧ c ≠ '|' ∧
      c ≠ '\n' ∧ c ≠ '\x0d' ∧ c ≠ '\t' ∧ c ≠ '，' := by
  rw [cleanChar] at h
  simp only [Bool.and_eq_true, decide_eq_true_eq, Bool.not_eq_true', beq_eq_false_iff_ne] at h
  obtain ⟨⟨⟨⟨⟨ha, hb⟩, hc1⟩, hc2⟩, hc3⟩, _⟩ := h
  refine ⟨ha, hb, hc1, hc2, hc3, ?_, ?_, ?_, ?_⟩
  · intro heq
    rw [heq] at ha
    exact absurd ha (by decide)
  · intro heq
    rw [heq] at ha
    exact absurd ha (by decide)
  · intro heq
    rw [heq] at ha
    exact absurd ha (by decide)
  · intro heq
    rw [heq] at hb
    exact absurd hb (by decide)

theorem mem_csvText {H : List Str} {R : List (List Str)} {c : Char}
    (hH : ∀ cell ∈ H, ∀ ch ∈ cell, cleanChar ch = true)
    (hR : ∀ r ∈ R, ∀ cell ∈ r, ∀ ch ∈ cell, cleanChar ch = true)
    (hc : c ∈ csvText H R) : cleanChar c = true ∨ c = ',' ∨ c = '\n' := by
  rw [csvText] at hc
  rcases mem_joinChar hc with ⟨line, hline, hcl⟩ | heq
  · rcases List.mem_cons.1 hline with rfl | hline
    · rw [csvLine] at hcl
      rcases mem_joinChar hcl with ⟨cell, hcell, hcc⟩ | heq2
      · exact Or.inl (hH cell hcell c hcc)
      · exact Or.inr (Or.inl heq2)
    · obtain ⟨r, hr, rfl⟩ := List.mem_map.1 hline
      rw [csvLine] at hcl
      rcases mem_joinChar hcl with ⟨cell, hcell, hcc⟩ | heq2
      · exact Or.inl (hR r hr cell hcell c hcc)
      · exact Or.inr (Or.inl heq2)
  · exact Or.inr (Or.inr heq)

theorem stripBom_id {t : Str} (h : ∀ c ∈ t, c.toNat ≤ 0x7E) : stripBom t = t := by
  cases t with
  | nil => rfl
  | cons c rest =>
    show (if c.toNat = 0xFEFF then rest else c :: rest) = c :: rest
    rw [if_neg]
    have := h c (List.mem_cons_self c rest)
    omega

theorem stripCrLf_id {t : Str} (h : '\x0d' ∉ t) : stripCrLf t = t := by
  induction t using stripCrLf.induct with
  | case1 rest ih =>
    exact absurd (List.mem_cons_self _ _) h
  | case2 c rest hne ih =>
    rw [stripCrLf.eq_def]
    split
    · next heq =>
      injection heq with h1 h2
      rw [h1] at h
      exact absurd (List.mem_cons_self _ _) h
    · next heq =>
      injection heq with h1 h2
      rw [← h1, ← h2]
      rw [ih (fun hm => h (List.mem_cons_of_mem c hm))]
    · next heq =>
      exact absurd heq (by simp)
  | case3 => rfl

theorem crToLf_id {t : Str} (h : '\x0d' ∉ t) : crToLf t = t := by
  rw [crToLf]
  have hp : ∀ c ∈ t, (if c = '\x0d' then '\n' else c) = id c := by
    intro c hc
    have hne : c ≠ '\x0d' := fun heq => h (heq ▸ hc)
    rw [if_neg hne]
    rfl
  rw [List.map_congr_left hp, List.map_id]

theorem stripSepLine_id {t : Str}
    (h : ∀ a b c d rest, t = a :: b :: c :: d :: rest →
      ¬(lowerAscii a = 's' ∧ lowerAscii b = 'e' ∧ lowerAscii c = 'p' ∧ d = '=')) :
    stripSepLine t = t := by
  rw [stripSepLine.eq_def]
  split
  · next a b c d rest => exact if_neg (h a b c d rest rfl)
  · rfl

theorem not_sep_of_line {L rest : Str} (h : startsSepDirective L = false) :
    ∀ a b c d tail, L ++ '\n' :: rest = a :: b :: c :: d :: tail →
      ¬(lowerAscii a = 's' ∧ lowerAscii b = 'e' ∧ lowerAscii c = 'p' ∧ d = '=') := by
  intro a b c d tail heq hcond
  cases L with
  | nil =>
    injection heq with h1 h2
    rw [← h1] at hcond
    exact absurd hcond.1 (by decide)
  | cons l0 L1 =>
    cases L1 with
    | nil =>
      injection heq with h1 h2
      injection h2 with h2 h3
      rw [← h2] at hcond
      exact absurd hcond.2.1 (by decide)
    | cons l1 L2 =>
      cases L2 with
      | nil =>
        injection heq with h1 h2
        injection h2 with h2 h3
        injection h3 with h3 h4
        rw [← h3] at hcond
        exact absurd hcond.2.2.1 (by decide)
      | cons l2 L3 =>
        cases L3 with
        | nil =>
          injection heq with h1 h2
          injection h2 with h2 h3
          injection h3 with h3 h4
          injection h4 with h4 h5
          rw [← h4] at hcond
          exact absurd hcond.2.2.2 (by decide)
        | cons l3 L4 =>
          injection heq with h1 h2
          injection h2 with h2 h3
          injection h3 with h3 h4
          injection h4 with h4 h5
          subst h1
          subst h2
          subst h3
          subst h4
          rw [startsSepDirective] at h
          simp [hcond.1, hcond.2.1, hcond.2.2.1, hcond.2.2.2] at h

theorem normalizeText_id {t : Str} (hb : ∀ c ∈ t, c.toNat ≤ 0x7E) (hr : '\x0d' ∉ t)
    (hsep : ∀ a b c d rest, t = a :: b :: c :: d :: rest →
      ¬(lowerAscii a = 's' ∧ lowerAscii b = 'e' ∧ lowerAscii c = 'p' ∧ d = '=')) :
    normalizeText t = t := by
  rw [normalizeText, stripBom_id hb, stripSepLine_id hsep, stripCrLf_id hr, crToLf_id hr]

theorem isLikelyXlsx_false_of_ge {buffer : Bytes} (h : ∀ b ∈ buffer, 0x0A ≤ b) :
    isLikelyXlsx buffer = false := by
  rw [isLikelyXlsx]
  have h3 : (buffer.getD 2 0 == 0x03) = false := by
    rcases getD_zero_or_mem buffer 2 with hz | hm
    · rw [hz]
      rfl
    · have := h _ hm
      simp only [beq_eq_false_iff_ne, ne_eq]
      omega
  rw [h3]
  simp

theorem utf8Decode_asciiBytes {t : Str} (h : ∀ c ∈ t, c.toNat < 0x80) :
    utf8Decode (asciiBytes t) = t := by
  rw [asciiBytes, utf8Decode_ascii (by
    intro b hb
    obtain ⟨c, hcm, rfl⟩ := List.mem_map.1 hb
    exact h c hcm), List.map_map]
  have hp : ∀ c ∈ t, (Char.ofNat ∘ Char.toNat) c = id c := fun c _ => Char.ofNat_toNat c
  rw [List.map_congr_left hp, List.map_id]

theorem eucKrDecode_asciiBytes {t : Str} (h : ∀ c ∈ t, c.toNat < 0x80) :
    eucKrDecode (asciiBytes t) = t := by
  rw [asciiBytes, eucKrDecode_ascii (by
    intro b hb
    obtain ⟨c, hcm, rfl⟩ := List.mem_map.1 hb
    exact h c hcm), List.map_map]
  have hp : ∀ c ∈ t, (Char.ofNat ∘ Char.toNat) c = id c := fun c _ => Char.ofNat_toNat c
  rw [List.map_congr_left hp, List.map_id]

theorem cleanCsv_spec {H : List Str} {R : List (List Str)} (hc : cleanCsv H R = true) :
    2 ≤ H.length ∧
    (∀ cell ∈ H, ∀ ch ∈ cell, cleanChar ch = true) ∧
    (∀ cell ∈ H, (jsTrim cell).isEmpty = false) ∧
    (H.map jsTrim).Nodup ∧
    R ≠ [] ∧
    (∀ r ∈ R, r.length = H.length) ∧
    (∀ r ∈ R, ∀ cell ∈ r, ∀ ch ∈ cell, cleanChar ch = true) ∧
    (∀ r ∈ R, ∃ cell ∈ r, (jsTrim cell).isEmpty = false) ∧
    startsSepDirective (csvLine H) = false := by
  simp only [cleanCsv, Bool.and_eq_true] at hc
  obtain ⟨⟨⟨⟨⟨⟨h1, h2⟩, h3⟩, h4⟩, h5⟩, h6⟩, h7⟩ := hc
  refine ⟨of_decide_eq_true h1, ?_, ?_, of_decide_eq_true h4, ?_, ?_, ?_, ?_, ?_⟩
  · intro cell hcell ch hch
    exact List.all_eq_true.1 (List.all_eq_true.1 h2 cell hcell) ch hch
  · intro cell hcell
    have := List.all_eq_true.1 h3 (jsTrim cell) (List.mem_map_of_mem jsTrim hcell)
    simpa using this
  · exact List.isEmpty_eq_false.1 (by simpa using h5)
  · intro r hr
    have hrow := List.all_eq_true.1 h6 r hr
    rw [Bool.and_eq_true, Bool.and_eq_true] at hrow
    simpa using hrow.1.1
  · intro r hr cell hcell ch hch
    have hrow := List.all_eq_true.1 h6 r hr
    rw [Bool.and_eq_true, Bool.and_eq_true] at hrow
    exact List.all_eq_true.1 (List.all_eq_true.1 hrow.1.2 cell hcell) ch hch
  · intro r hr
    have hrow := List.all_eq_true.1 h6 r hr
    rw [Bool.and_eq_true, Bool.and_eq_true] at hrow
    obtain ⟨cell, hm, hb⟩ := List.any_eq_true.1 hrow.2
    exact ⟨cell, hm, by simpa using hb⟩
  · simpa using h7

theorem papaGrid_csvText {H : List Str} {R : List (List Str)} (hc : cleanCsv H R = true) :
    papaGrid ',' (csvText H R) = H :: R := by
  obtain ⟨hH2, hHcl, hHnb, hnd, hRne, hRlen, hRcl, hRany, hsep⟩ := cleanCsv_spec hc
  have hHne : H ≠ [] := by
    intro h
    rw [h] at hH2
    simp at hH2
  have hHnoc : ∀ cell ∈ H, ',' ∉ cell :=
    fun cell hcell hm => (cleanChar_facts (hHcl cell hcell ',' hm)).2.2.1 rfl
  have hRne2 : ∀ r ∈ R, r ≠ [] := by
    intro r hr h
    have := hRlen r hr
    rw [h] at this
    simp at this
    omega
  have hlines : splitOnChar '\n' (csvText H R) = csvLine H :: R.map csvLine := by
    rw [csvText]
    apply splitOnChar_joinChar (by simp)
    intro xs hxs
    rcases List.mem_cons.1 hxs with rfl | hxs
    · intro hm
      rw [csvLine] at hm
      rcases mem_joinChar hm with ⟨cell, hcell, hcm⟩ | heq
      · exact (cleanChar_facts (hHcl cell hcell _ hcm)).2.2.2.2.2.1 rfl
      · exact absurd heq (by decide)
    · obtain ⟨r, hr, rfl⟩ := List.mem_map.1 hxs
      intro hm
      rw [csvLine] at hm
      rcases mem_joinChar hm with ⟨cell, hcell, hcm⟩ | heq
      · exact (cleanChar_facts (hRcl r hr cell hcell _ hcm)).2.2.2.2.2.1 rfl
      · exact absurd heq (by decide)
  have hsplitLine : ∀ r : List Str, (∀ cell ∈ r, ',' ∉ cell) → r ≠ [] →
      splitOnChar ',' (csvLine r) = r := by
    intro r hno hne
    rw [csvLine]
    exact splitOnChar_joinChar hne hno
  have hcells : papaCells ',' (csvText H R) = H :: R := by
    rw [papaCells, hlines, List.map_cons, hsplitLine H hHnoc hHne, List.map_map]
    congr 1
    have h1 : R.map (splitOnChar ',' ∘ csvLine) = R.map id :=
      List.map_congr_left (fun r hr => hsplitLine r
        (fun cell hcell hm => (cleanChar_facts (hRcl r hr cell hcell ',' hm)).2.2.1 rfl)
        (hRne2 r hr))
    rw [h1, List.map_id]
  rw [papaGrid, hcells]
  apply List.filter_eq_self.2
  intro row hrow
  rcases List.mem_cons.1 hrow with rfl | hrow
  · show (!isBlankRow row) = true
    obtain ⟨x, hx⟩ := List.exists_mem_of_ne_nil row hHne
    rw [isBlankRow_eq_false hx (hHnb x hx)]
    rfl
  · show (!isBlankRow row) = true
    obtain ⟨cell, hcm, hcb⟩ := hRany row hrow
    rw [isBlankRow_eq_false hcm hcb]
    rfl

theorem any_zip_snd : ∀ (ks vs : List Str), vs.any (fun v => !v.isEmpty) = true →
    vs.length ≤ ks.length → (ks.zip vs).any (fun p => !p.2.isEmpty) = true := by
  intro ks
  induction ks with
  | nil =>
    intro vs hany hlen
    have hvnil : vs = [] := List.length_eq_zero.1 (Nat.le_zero.1 hlen)
    subst hvnil
    simp at hany
  | cons k ks2 ih =>
    intro vs hany hlen
    cases vs with
    | nil => simp at hany
    | cons v vs2 =>
      rw [List.zip_cons_cons, List.any_cons, Bool.or_eq_true]
      rw [List.any_cons, Bool.or_eq_true] at hany
      rcases hany with hv | hv
      · exact Or.inl hv
      · exact Or.inr (ih vs2 hv (by simpa using hlen))

theorem enum_getD_eq_zip : ∀ (hs rt : List Str) (k : Nat) (r : List Str),
    hs.length = rt.length → (∀ i, r.getD (k + i) [] = rt.getD i []) →
    (hs.enumFrom k).map (fun p => (p.2, jsTrim (r.getD p.1 []))) =
      hs.zip (rt.map jsTrim) := by
  intro hs
  induction hs with
  | nil =>
    intro rt k r _ _
    rfl
  | cons h0 hs2 ih =>
    intro rt k r hlen hidx
    cases rt with
    | nil => simp at hlen
    | cons rt0 rt2 =>
      rw [List.enumFrom_cons, List.map_cons, List.map_cons, List.zip_cons_cons]
      congr 1
      · have hx := hidx 0
        rw [Nat.add_zero] at hx
        rw [hx]
        rfl
      · apply ih rt2 (k + 1) r (by simpa using hlen)
        intro j
        have hx := hidx (j + 1)
        rw [show k + (j + 1) = k + 1 + j from by omega] at hx
        rw [hx]
        rfl

theorem expectedMatrixRows_eq_expectedRows {H : List Str} {R : List (List Str)}
    (hlen : ∀ r ∈ R, r.length = H.length) :
    expectedMatrixRows H R = expectedRows H R := by
  rw [expectedMatrixRows, expectedRows]
  apply List.map_congr_left
  intro r hr
  rw [List.enum_eq_enumFrom]
  apply enum_getD_eq_zip (H.map jsTrim) r 0 r
  · rw [List.length_map]
    exact (hlen r hr).symm
  · intro j
    rw [Nat.zero_add]

theorem flatMap_nil_of_all {α β : Type} (l : List α) (f : α → List β)
    (h : ∀ x ∈ l, f x = []) : l.flatMap f = [] := by
  induction l with
  | nil => rfl
  | cons a t ih =>
    rw [List.flatMap_cons, h a (List.mem_cons_self a t), List.nil_append]
    exact ih (fun x hx => h x (List.mem_cons_of_mem a hx))

theorem buildObj_eq_zip {fields row : List Str} (hnd : fields.Nodup)
    (hlen : row.length = fields.length) : buildObj fields row = fields.zip row := by
  have hnlt : ¬fields.length < row.length := by omega
  rw [buildObj, if_neg hnlt]
  calc (fields.zip row).foldl (fun acc p => objInsert p.1 p.2 acc) []
      = [] ++ fields.zip row := by
        apply foldl_objInsert_nodup
        · intro p _ q hq
          exact absurd hq (List.not_mem_nil q)
        · rw [List.map_fst_zip fields row (by omega)]
          exact hnd
    _ = fields.zip row := List.nil_append _

theorem normalizeRow_zip {fields r : List Str} (hnd : fields.Nodup)
    (hid : fields.map jsTrim = fields) (hlen : fields.length ≤ r.length) :
    (fields.zip r).foldl (fun acc p => objInsert (jsTrim p.1) (jsTrim p.2) acc) [] =
      fields.zip (r.map jsTrim) := by
  calc (fields.zip r).foldl (fun acc p => objInsert (jsTrim p.1) (jsTrim p.2) acc) []
      = ((fields.zip r).map (fun p : Str × Str => (jsTrim p.1, jsTrim p.2))).foldl
          (fun acc q => objInsert q.1 q.2 acc) [] := by
        rw [List.foldl_map]
    _ = [] ++ (fields.zip r).map (fun p : Str × Str => (jsTrim p.1, jsTrim p.2)) := by
        apply foldl_objInsert_nodup
        · intro p _ q hq
          exact absurd hq (List.not_mem_nil q)
        · rw [List.map_map, show ((Prod.fst ∘ fun p : Str × Str => (jsTrim p.1, jsTrim p.2))) =
            jsTrim ∘ Prod.fst from rfl, ← List.map_map, List.map_fst_zip fields r hlen, hid]
          exact hnd
    _ = fields.zip (r.map jsTrim) := by
        rw [List.nil_append,
          show (fun p : Str × Str => (jsTrim p.1, jsTrim p.2)) = Prod.map jsTrim jsTrim from rfl,
          ← List.zip_map, hid]

theorem papaHeader_csvText {H : List Str} {R : List (List Str)} (hc : cleanCsv H R = true) :
    papaHeader (csvText H R) (some ',') =
      ⟨H.map jsTrim, R.map (buildObj (H.map jsTrim)), []⟩ := by
  obtain ⟨hH2, _, _, _, _, hRlen, _, _, _⟩ := cleanCsv_spec hc
  have hgrid := papaGrid_csvText hc
  rw [papaHeader, show papaDelim (csvText H R) (some ',') = (',', []) from rfl, papaHeaderCore]
  split
  · next heq =>
    rw [hgrid] at heq
    exact absurd heq (by simp)
  · next hrow rest heq =>
    rw [hgrid] at heq
    injection heq with heq1 heq2
    subst heq1
    subst heq2
    simp only []
    rw [List.nil_append]
    rw [flatMap_nil_of_all R _ (by
      intro r hr
      rw [if_pos]
      rw [beq_iff_eq, List.length_map]
      exact hRlen r hr)]

theorem normalizeRows_clean {H : List Str} {R : List (List Str)} (hc : cleanCsv H R = true) :
    normalizeRows (R.map (buildObj (H.map jsTrim))) = expectedRows H R := by
  obtain ⟨_, _, _, hnd, _, hRlen, _, hRany, _⟩ := cleanCsv_spec hc
  have hid : (H.map jsTrim).map jsTrim = H.map jsTrim := by
    rw [List.map_map]
    exact List.map_congr_left (fun x _ => jsTrim_idem x)
  rw [normalizeRows, List.map_map]
  have hmap : R.map ((fun row => row.foldl
        (fun acc p => objInsert (jsTrim p.1) (jsTrim p.2) acc) []) ∘ buildObj (H.map jsTrim)) =
      expectedRows H R := by
    rw [expectedRows]
    apply List.map_congr_left
    intro r hr
    show (buildObj (H.map jsTrim) r).foldl
        (fun acc p => objInsert (jsTrim p.1) (jsTrim p.2) acc) [] =
      (H.map jsTrim).zip (r.map jsTrim)
    rw [buildObj_eq_zip hnd (by rw [List.length_map]; exact hRlen r hr)]
    exact normalizeRow_zip hnd hid (by rw [List.length_map]; exact (hRlen r hr).symm.le)
  rw [hmap]
  apply List.filter_eq_self.2
  intro row hrow
  rw [expectedRows] at hrow
  obtain ⟨r, hr, rfl⟩ := List.mem_map.1 hrow
  show ((H.map jsTrim).zip (r.map jsTrim)).any (fun p => !p.2.isEmpty) = true
  apply any_zip_snd
  · obtain ⟨cell, hcm, hcb⟩ := hRany r hr
    apply List.any_eq_true.2
    exact ⟨jsTrim cell, List.mem_map_of_mem jsTrim hcm, by simpa using hcb⟩
  · rw [List.length_map, List.length_map]
    exact (hRlen r hr).le

theorem parseWithHeader_clean {H : List Str} {R : List (List Str)}
    (hc : cleanCsv H R = true) :
    ∃ A, parseWithHeader (csvText H R) (some ',') = some A ∧
      A.rows = expectedRows H R ∧
      A.score = (R.length : Int) * 10 + (H.length : Int) * 3 +
        rowsQualityScore (expectedRows H R) := by
  obtain ⟨hH2, _, _, _, hRne, _, _, _, _⟩ := cleanCsv_spec hc
  have hRpos : 0 < R.length := List.length_pos.2 hRne
  have hlenE : (expectedRows H R).length = R.length := by
    rw [expectedRows, List.length_map]
  rw [parseWithHeader, papaHeader_csvText hc]
  simp only []
  rw [normalizeRows_clean hc]
  rw [if_neg (by
    rw [not_or, List.length_map, hlenE]
    exact ⟨by omega, by omega⟩)]
  refine ⟨_, rfl, rfl, ?_⟩
  show ((expectedRows H R).length : Int) * 10 + ((H.map jsTrim).length : Int) * 3 -
      (((([] : List PapaErrKind).filter (fun e => e == PapaErrKind.fieldMismatch)).length : Nat) :
        Int) -
      ((([] : List PapaErrKind).length : Nat) : Int) * 2 + rowsQualityScore (expectedRows H R) =
    (R.length : Int) * 10 + (H.length : Int) * 3 + rowsQualityScore (expectedRows H R)
  rw [hlenE, List.length_map]
  simp

theorem parseWithMatrix_cleanCsv {H : List Str} {R : List (List Str)}
    (hc : cleanCsv H R = true) :
    ∃ M, parseWithMatrix (csvText H R) (some ',') = some M ∧
      M.rows = expectedRows H R ∧
      M.score = (R.length : Int) * 8 + (H.length : Int) * 3 +
        rowsQualityScore (expectedRows H R) := by
  obtain ⟨hH2, _, hHnb, hnd, hRne, hRlen, _, hRany, _⟩ := cleanCsv_spec hc
  have hgrid := papaGrid_csvText hc
  have hRpos : 0 < R.length := List.length_pos.2 hRne
  have hmx : papaMatrix (csvText H R) (some ',') = (H :: R, []) := by
    rw [papaMatrix, show papaDelim (csvText H R) (some ',') = (',', []) from rfl, hgrid]
  have hHtrue : ((fun row => decide (2 ≤ (row.filter (fun v => !(jsTrim v).isEmpty)).length)) H) =
      true := by
    simp only [decide_eq_true_eq]
    rw [List.filter_eq_self.2 (fun s hs => by simp [hHnb s hs])]
    exact hH2
  have hfind : List.findIdx?
      (fun row => decide (2 ≤ (row.filter (fun v => !(jsTrim v).isEmpty)).length))
      (H :: R) = some 0 := by
    rw [List.findIdx?_cons, if_pos hHtrue]
  have hhdr : uniqueHeaders (H.map jsTrim) = H.map jsTrim := by
    rw [uniqueHeaders]
    apply uniqueHeadersGo_id
    · intro x hx
      obtain ⟨h0, _, rfl⟩ := List.mem_map.1 hx
      exact jsTrim_idem h0
    · intro x hx
      obtain ⟨h0, hh0, rfl⟩ := List.mem_map.1 hx
      have hb := hHnb h0 hh0
      intro hnil
      rw [hnil] at hb
      simp at hb
    · intro x _
      exact lookupCount_nil x
    · exact hnd
  have hbuild : R.map (buildMatrixRow (H.map jsTrim)) = expectedMatrixRows H R := by
    rw [expectedMatrixRows]
    exact List.map_congr_left (fun r _ => buildMatrixRow_nodup hnd r)
  have hEM : expectedMatrixRows H R = expectedRows H R :=
    expectedMatrixRows_eq_expectedRows hRlen
  have hfilter : (expectedRows H R).filter
      (fun row => row.any (fun p => !p.2.isEmpty)) = expectedRows H R := by
    apply List.filter_eq_self.2
    intro row hrow
    rw [expectedRows] at hrow
    obtain ⟨r, hr, rfl⟩ := List.mem_map.1 hrow
    show ((H.map jsTrim).zip (r.map jsTrim)).any (fun p => !p.2.isEmpty) = true
    apply any_zip_snd
    · obtain ⟨cell, hcm, hcb⟩ := hRany r hr
      apply List.any_eq_true.2
      exact ⟨jsTrim cell, List.mem_map_of_mem jsTrim hcm, by simpa using hcb⟩
    · rw [List.length_map, List.length_map]
      exact (hRlen r hr).le
  have hlenE : (expectedRows H R).length = R.length := by
    rw [expectedRows, List.length_map]
  rw [parseWithMatrix]
  simp only []
  rw [hmx]
  dsimp only
  rw [if_neg (by simp only [List.length_cons]; omega)]
  split
  · next heq =>
    rw [hfind] at heq
    exact absurd heq (by simp)
  · next idx heq =>
    rw [hfind] at heq
    injection heq with hi
    subst hi
    rw [if_neg (by simp only [List.length_cons]; omega)]
    rw [show ((H :: R : List (List Str)).getD 0 []) = H from rfl]
    rw [hhdr]
    rw [if_neg (by simp only [List.length_map]; omega)]
    rw [show ((H :: R : List (List Str)).drop (0 + 1)) = R from rfl]
    rw [hbuild, hEM, hfilter]
    rw [if_neg (by rw [hlenE]; omega)]
    refine ⟨_, rfl, rfl, ?_⟩
    show ((expectedRows H R).length : Int) * 8 + ((H.map jsTrim).length : Int) * 3 -
        ((([] : List PapaErrKind).length : Nat) : Int) * 2 +
        rowsQualityScore (expectedRows H R) =
      (R.length : Int) * 8 + (H.length : Int) * 3 + rowsQualityScore (expectedRows H R)
    rw [hlenE, List.length_map]
    simp

theorem sniffDelim_csvText {H : List Str} {R : List (List Str)} (hc : cleanCsv H R = true) :
    sniffDelim (csvText H R) = some ',' := by
  obtain ⟨hH2, _, _, _, _, hRlen, _, _, _⟩ := cleanCsv_spec hc
  have hgrid := papaGrid_csvText hc
  have hcons : consistentDelim (csvText H R) ',' = true := by
    rw [consistentDelim]
    split
    · next heq =>
      rw [hgrid] at heq
      exact absurd heq (by simp)
    · next r rs heq =>
      rw [hgrid] at heq
      injection heq with heq1 heq2
      subst heq1
      subst heq2
      rw [Bool.and_eq_true]
      refine ⟨decide_eq_true hH2, ?_⟩
      apply List.all_eq_true.2
      intro row hrow
      rw [beq_iff_eq]
      exact hRlen row hrow
  rw [sniffDelim, SNIFF_DELIMS]
  exact List.find?_cons_of_pos _ hcons

theorem papaDelim_auto {text : Str} (hsniff : sniffDelim text = some ',') :
    papaDelim text none = (',', []) := by
  rw [papaDelim, hsniff]

theorem parseWithHeader_auto {text : Str} (hsniff : sniffDelim text = some ',') :
    parseWithHeader text none = parseWithHeader text (some ',') := by
  have h1 : papaHeader text none = papaHeader text (some ',') := by
    rw [papaHeader, papaHeader, papaDelim_auto hsniff,
      show papaDelim text (some ',') = (',', []) from rfl]
  rw [parseWithHeader, parseWithHeader, h1]

theorem parseWithHeader_none_forced {text : Str} {d : Char} (h : d ∉ text) :
    parseWithHeader text (some d) = none := by
  have hd : (papaDelim text (some d)).1 ∉ text := h
  rw [parseWithHeader, if_pos]
  left
  rw [papaHeader, papaHeaderCore]
  cases hg : papaGrid (papaDelim text (some d)).1 text with
  | nil => simp
  | cons hrow rest =>
    have hlen : hrow.length = 1 :=
      papaGrid_single_cells hd hrow (hg ▸ List.mem_cons_self hrow rest)
    simp [hlen]

theorem parseWithMatrix_none_forced {text : Str} {d : Char} (h : d ∉ text) :
    parseWithMatrix text (some d) = none := by
  have hd : (papaDelim text (some d)).1 ∉ text := h
  rw [parseWithMatrix]
  split
  · rfl
  · have hnone : ((papaMatrix text (some d)).1).findIdx?
        (fun row => decide (2 ≤ (row.filter (fun v => !(jsTrim v).isEmpty)).length)) =
          none := by
      apply List.findIdx?_eq_none_iff.mpr
      intro row hrow
      have hlen : row.length = 1 := papaGrid_single_cells hd row hrow
      have hfle : (row.filter (fun v => !(jsTrim v).isEmpty)).length ≤ 1 := by
        calc (row.filter (fun v => !(jsTrim v).isEmpty)).length ≤ row.length :=
              List.length_filter_le _ _
          _ = 1 := hlen
      simp
      omega
    rw [hnone]

theorem candidatesFor_eq_AAM {text : Str} {A M : ParseCandidate}
    (hauto : parseWithHeader text none = some A)
    (hA : parseWithHeader text (some ',') = some A)
    (hM : parseWithMatrix text (some ',') = some M)
    (hsemi : ';' ∉ text) (htab : '\t' ∉ text) (hpipe : '|' ∉ text) (hfw : '，' ∉ text) :
    candidatesFor text = [A, A, M] := by
  rw [candidatesFor, DELIMITER_CANDIDATES]
  simp only [List.flatMap_cons, List.flatMap_nil, List.append_nil]
  rw [hauto, hA, hM,
    parseWithHeader_none_forced hsemi, parseWithMatrix_none_forced hsemi,
    parseWithHeader_none_forced htab, parseWithMatrix_none_forced htab,
    parseWithHeader_none_forced hpipe, parseWithMatrix_none_forced hpipe,
    parseWithHeader_none_forced hfw, parseWithMatrix_none_forced hfw]
  rfl

/-- **C4**: a buffer holding a clean, comma-delimited pure-ASCII table — at
least 2 header columns, all of them non-blank and pairwise distinct after
trimming, at least 1 data row, each data row with exactly one cell per header
column and a non-blank cell — decodes to exactly those data rows as
key-value mappings, header names and cell values whitespace-trimmed. -/
theorem claim_C4_clean_roundtrip (H : List Str) (R : List (List Str))
    (hc : cleanCsv H R = true) :
    parseCsvBuffer (asciiBytes (csvText H R)) = Except.ok (expectedRows H R) := by
  obtain ⟨hH2, hHcl, hHnb, hnd, hRne, hRlen, hRcl, hRany, hsep⟩ := cleanCsv_spec hc
  obtain ⟨A, hA, hArows, hAscore⟩ := parseWithHeader_clean hc
  obtain ⟨M, hM, hMrows, hMscore⟩ := parseWithMatrix_cleanCsv hc
  have hsniff := sniffDelim_csvText hc
  have hauto : parseWithHeader (csvText H R) none = some A := by
    rw [parseWithHeader_auto hsniff]
    exact hA
  have hmem : ∀ c ∈ csvText H R, cleanChar c = true ∨ c = ',' ∨ c = '\n' :=
    fun c hcm => mem_csvText hHcl hRcl hcm
  have hnotmem : ∀ d : Char, cleanChar d = false → d ≠ ',' → d ≠ '\n' →
      d ∉ csvText H R := by
    intro d hcl hc1 hc2 hm
    rcases hmem d hm with h | h | h
    · rw [h] at hcl
      exact absurd hcl (by simp)
    · exact hc1 h
    · exact hc2 h
  have hcf : candidatesFor (csvText H R) = [A, A, M] :=
    candidatesFor_eq_AAM hauto hA hM
      (hnotmem ';' (by decide) (by decide) (by decide))
      (hnotmem '\t' (by decide) (by decide) (by decide))
      (hnotmem '|' (by decide) (by decide) (by decide))
      (hnotmem '，' (by decide) (by decide) (by decide))
  have hble : ∀ c ∈ csvText H R, c.toNat ≤ 0x7E := by
    intro c hcm
    rcases hmem c hcm with h | h | h
    · exact (cleanChar_facts h).2.1
    · rw [h]
      decide
    · rw [h]
      decide
  have hbge : ∀ c ∈ csvText H R, 0x0A ≤ c.toNat := by
    intro c hcm
    rcases hmem c hcm with h | h | h
    · have := (cleanChar_facts h).1
      omega
    · rw [h]
      decide
    · rw [h]
      decide
  have hbytes : ∀ b ∈ asciiBytes (csvText H R), 0x0A ≤ b ∧ b ≤ 0x7E := by
    intro b hb
    rw [asciiBytes] at hb
    obtain ⟨c, hcm, rfl⟩ := List.mem_map.1 hb
    exact ⟨hbge c hcm, hble c hcm⟩
  have hxlsx : isLikelyXlsx (asciiBytes (csvText H R)) = false :=
    isLikelyXlsx_false_of_ge (fun b hb => (hbytes b hb).1)
  have hshape : ∃ rest0, csvText H R = csvLine H ++ '\n' :: rest0 := by
    cases R with
    | nil => exact absurd rfl hRne
    | cons r0 R2 =>
      exact ⟨joinChar '\n' (csvLine r0 :: R2.map csvLine),
        by rw [csvText, List.map_cons, joinChar_cons_cons]⟩
  obtain ⟨rest0, hre⟩ := hshape
  have hrnot : '\x0d' ∉ csvText H R := hnotmem '\x0d' (by decide) (by decide) (by decide)
  have hnorm : normalizeText (csvText H R) = csvText H R := by
    apply normalizeText_id hble hrnot
    intro a b c d tail heq
    apply not_sep_of_line hsep a b c d tail
    rw [← hre]
    exact heq
  have hTne : (csvText H R).isEmpty = false := by
    rw [hre]
    simp
  have hdec8 : utf8Decode (asciiBytes (csvText H R)) = csvText H R :=
    utf8Decode_asciiBytes (fun c hcm => by have := hble c hcm; omega)
  have hdecK : eucKrDecode (asciiBytes (csvText H R)) = csvText H R :=
    eucKrDecode_asciiBytes (fun c hcm => by have := hble c hcm; omega)
  have h16 : ∀ le, candidatesFor
      (normalizeText (utf16Decode le (asciiBytes (csvText H R)))) = [] := by
    intro le
    obtain ⟨hn, hr⟩ := @utf16_no_newline_cr le _ (fun b hb => by
      have := hbytes b hb
      omega)
    exact candidatesFor_nil_of_no_newline (normalizeText_no_newline hn hr)
  have hcoll : collectCandidates (asciiBytes (csvText H R)) =
      [A, A, M, A, A, M, A, A, M] := by
    rw [collectCandidates, ENCODING_CANDIDATES]
    simp only [List.flatMap_cons, List.flatMap_nil, List.append_nil, decodeWithEncoding,
      decodeBytes]
    rw [hdec8, hdecK, hnorm]
    rw [encodingContribution_nil (h16 true), encodingContribution_nil (h16 false)]
    rw [if_neg (by rw [hTne]; simp)]
    rw [hcf]
    rfl
  have hscoreMA : M.score < A.score := by
    rw [hMscore, hAscore]
    have h1 : (1 : Int) ≤ (R.length : Int) := by
      rw [Nat.one_le_cast]
      exact Nat.succ_le_of_lt (List.length_pos.2 hRne)
    linarith
  have hMA : M.score ≤ A.score := le_of_lt hscoreMA
  have hfm : firstMax [A, A, M, A, A, M, A, A, M] = some A := by
    have f1 : firstMax [M] = some M := firstMax_cons_none rfl
    have f2 : firstMax [A, M] = some A := by
      rw [firstMax_cons_some f1, if_pos hMA]
    have f3 : firstMax [A, A, M] = some A := by
      rw [firstMax_cons_some f2, if_pos (le_refl _)]
    have f4 : firstMax [M, A, A, M] = some A := by
      rw [firstMax_cons_some f3, if_neg (not_le.2 hscoreMA)]
    have f5 : firstMax [A, M, A, A, M] = some A := by
      rw [firstMax_cons_some f4, if_pos (le_refl _)]
    have f6 : firstMax [A, A, M, A, A, M] = some A := by
      rw [firstMax_cons_some f5, if_pos (le_refl _)]
    have f7 : firstMax [M, A, A, M, A, A, M] = some A := by
      rw [firstMax_cons_some f6, if_neg (not_le.2 hscoreMA)]
    have f8 : firstMax [A, M, A, A, M, A, A, M] = some A := by
      rw [firstMax_cons_some f7, if_pos (le_refl _)]
    rw [firstMax_cons_some f8, if_pos (le_refl _)]
  rw [parseCsvBuffer, if_neg (by rw [hxlsx]; simp)]
  rw [hcoll]
  cases hs : sortDesc [A, A, M, A, A, M, A, A, M] with
  | nil => exact absurd (sortDesc_eq_nil_iff.1 hs) (by simp)
  | cons best tail =>
    have hhead := head?_sortDesc_eq_firstMax [A, A, M, A, A, M, A, A, M]
    rw [hs, hfm] at hhead
    simp at hhead
    show Except.ok best.rows = Except.ok (expectedRows H R)
    rw [hhead, hArows]

theorem claim_C4_clean_roundtrip_witness :
    cleanCsv [['a'], ['b']] [[['1'], ['2']]] = true ∧
    parseCsvBuffer (asciiBytes (csvText [['a'], ['b']] [[['1'], ['2']]])) =
      Except.ok (expectedRows [['a'], ['b']] [[['1'], ['2']]]) :=
  ⟨by decide, claim_C4_clean_roundtrip [['a'], ['b']] [[['1'], ['2']]] (by decide)⟩

end Csv
